import Mathlib

/-! ## Constant-time limb-vector primitives of `src/vect.h`

A shallow embedding of the inline C functions of `vect.h`.

* A limb (`limb_t`) is a natural number below `2 ^ 64`; arithmetic that can
  leave that range in C is reduced with an explicit `% 2 ^ 64`.
* A byte (`unsigned char`) is a natural number below `256`.
* An array reached through a pointer is a function from the index to the
  element stored there.  A store `p[i] = x` is `Function.update p i x`.
* `for (i = 0; i < k; i++)` is a left fold over `List.range k`;
  `while (n--)` is structural recursion on `n`.
-/

namespace Vect

/-! ## Platform constants -/

/-- The constant `LIMB_T_BITS` of the supported platforms. -/
def LIMB_T_BITS : Nat := 64

/-- The value of `sizeof(limb_t)`, the limb width in bytes. -/
def sizeof_limb_t : Nat := 8

/-- Truncation of an integer to `limb_t`. -/
def to_limb (x : Nat) : Nat := x % 2 ^ LIMB_T_BITS

/-- Conversion `(unsigned char)x`. -/
def to_uchar (x : Nat) : Nat := x % 256

/-- Bitwise complement `~l` of a limb. -/
def limb_not (l : Nat) : Nat := 2 ^ LIMB_T_BITS - 1 - l

/-- Wrapping decrement `l - 1` of a limb: `0 - 1` is `2 ^ 64 - 1`. -/
def limb_pred (l : Nat) : Nat := (l + (2 ^ LIMB_T_BITS - 1)) % 2 ^ LIMB_T_BITS

/-- Left shift `limb <<= 8` of a limb, the bits shifted out being lost. -/
def limb_shl8 (l : Nat) : Nat := to_limb (l <<< 8)

/-! ## Zero and equality tests -/

/-- Function `is_zero`: `(~l & (l - 1)) >> (LIMB_T_BITS - 1)`. -/
def is_zero (l : Nat) : Nat :=
  (limb_not l &&& limb_pred l) >>> (LIMB_T_BITS - 1)

/-- Function `vec_is_zero`: OR of the limbs `ap[0 .. num / 8)`, then `is_zero`. -/
def vec_is_zero (ap : Nat → Nat) (num : Nat) : Nat :=
  is_zero ((List.range (num / sizeof_limb_t)).foldl (fun acc i => acc ||| ap i) 0)

/-- Function `vec_is_equal`: OR of `ap[i] ^ bp[i]` over `[0, num / 8)`, then
`is_zero`. -/
def vec_is_equal (ap bp : Nat → Nat) (num : Nat) : Nat :=
  is_zero ((List.range (num / sizeof_limb_t)).foldl (fun acc i => acc ||| (ap i ^^^ bp i)) 0)

/-! ## Copy and clear -/

/-- Function `vec_copy` on one limb-addressed memory `mem`, `ret` and `a` being
the positions the two pointers refer to: `rp[i] = ap[i]` for `i < num / 8`.
Each load sees the stores made before it. -/
def vec_copy (mem : Nat → Nat) (ret a : Nat) (num : Nat) : Nat → Nat :=
  (List.range (num / sizeof_limb_t)).foldl
    (fun m i => Function.update m (ret + i) (m (a + i))) mem

/-- Function `vec_zero`: `rp[i] = 0` for `i < num / 8`.  The `volatile`
qualifier and the empty `asm` barrier do not change the values stored. -/
def vec_zero (rp : Nat → Nat) (num : Nat) : Nat → Nat :=
  (List.range (num / sizeof_limb_t)).foldl (fun m i => Function.update m i 0) rp

/-! ## Byte conversions -/

/-- Loop of `limbs_from_be_bytes`.  The first argument is `n`, `p` is the
number of bytes consumed so far (the offset of the moving pointer `in`),
`limb` the accumulator and `ret` the limb array. -/
def limbs_from_be_bytes_loop (inp : Nat → Nat) : Nat → Nat → Nat → (Nat → Nat) → (Nat → Nat)
  | 0, _, _, ret => ret
  | n + 1, p, limb, ret =>
    let limb1 := limb_shl8 limb ||| inp p
    limbs_from_be_bytes_loop inp n (p + 1) limb1
      (Function.update ret (n / sizeof_limb_t) limb1)

/-- Function `limbs_from_be_bytes`. -/
def limbs_from_be_bytes (ret : Nat → Nat) (inp : Nat → Nat) (n : Nat) : Nat → Nat :=
  limbs_from_be_bytes_loop inp n 0 0 ret

/-- Loop of `be_bytes_from_limbs`.  The first argument is `n`, `p` is the
number of bytes written so far (the offset of the moving pointer `out`). -/
def be_bytes_from_limbs_loop (inp : Nat → Nat) : Nat → Nat → (Nat → Nat) → (Nat → Nat)
  | 0, _, out => out
  | n + 1, p, out =>
    let limb := inp (n / sizeof_limb_t)
    be_bytes_from_limbs_loop inp n (p + 1)
      (Function.update out p (to_uchar (limb >>> (8 * (n % sizeof_limb_t)))))

/-- Function `be_bytes_from_limbs` for a destination `out` that does not
overlap the limbs `inp`, so that no store changes a limb that is loaded later.
The function on one memory, overlapping calls included, is
`be_bytes_from_limbs_mem`; the two agree on disjoint storage. -/
def be_bytes_from_limbs (out : Nat → Nat) (inp : Nat → Nat) (n : Nat) : Nat → Nat :=
  be_bytes_from_limbs_loop inp n 0 out

/-- Loop of `limbs_from_le_bytes`.  The first argument is `n`. -/
def limbs_from_le_bytes_loop (inp : Nat → Nat) : Nat → Nat → (Nat → Nat) → (Nat → Nat)
  | 0, _, ret => ret
  | n + 1, limb, ret =>
    let limb1 := limb_shl8 limb ||| inp n
    limbs_from_le_bytes_loop inp n limb1
      (Function.update ret (n / sizeof_limb_t) limb1)

/-- Function `limbs_from_le_bytes`. -/
def limbs_from_le_bytes (ret : Nat → Nat) (inp : Nat → Nat) (n : Nat) : Nat → Nat :=
  limbs_from_le_bytes_loop inp n 0 ret

/-- Inner loop of `le_bytes_from_limbs`:
`for (j = 0; j < cnt; j++, limb >>= 8) *out++ = (unsigned char)limb`.
The state is the offset `p` of the moving pointer `out` and the byte array. -/
def le_store_limb : Nat → Nat → Nat → (Nat → Nat) → Nat × (Nat → Nat)
  | 0, _, p, out => (p, out)
  | cnt + 1, limb, p, out =>
    le_store_limb cnt (limb >>> 8) (p + 1) (Function.update out p (to_uchar limb))

/-- Outer loop of `le_bytes_from_limbs` over the whole limbs `in[0 .. n / 8)`. -/
def le_bytes_whole_limbs (inp : Nat → Nat) (k : Nat) (out : Nat → Nat) : Nat × (Nat → Nat) :=
  (List.range k).foldl (fun st i => le_store_limb sizeof_limb_t (inp i) st.1 st.2) (0, out)

/-- Function `le_bytes_from_limbs`.  `same` is the outcome of the pointer
comparison `(uptr_t)out == (uptr_t)in` and `little` the value of
`is_endian.little`.  `inp` gives the limbs as they are before the call: limb
`i` is loaded before any byte at offset `8 * i` or above is stored. -/
def le_bytes_from_limbs (same little : Bool) (out : Nat → Nat) (inp : Nat → Nat)
    (n : Nat) : Nat → Nat :=
  if same && little then out
  else
    let r := n % sizeof_limb_t
    let k := n / sizeof_limb_t
    let st := le_bytes_whole_limbs inp k out
    if r ≠ 0 then (le_store_limb r (inp k) st.1 st.2).2 else st.2

/-! ## Integers represented by arrays -/

/-- Integer held by the limbs `v[0 .. k)`, least-significant limb first. -/
def limbs_value (v : Nat → Nat) (k : Nat) : Nat :=
  ∑ i in Finset.range k, v i * 2 ^ (64 * i)

/-- Byte number `m` of a limb array: `(v[m / 8] >> 8 * (m mod 8)) mod 256`. -/
def limbs_byte (v : Nat → Nat) (m : Nat) : Nat :=
  (v (m / 8) >>> (8 * (m % 8))) % 256

/-- Number of limbs that hold `n` bytes, `ceil(n / 8)`. -/
def limbs_for (n : Nat) : Nat := (n + 7) / 8

/-- Integer with the digits `d 0, d 1, ..., d (n - 1)` in base `B`, digit `0`
being the least significant. -/
def digits_value (B : Nat) (d : Nat → Nat) (n : Nat) : Nat :=
  ∑ k in Finset.range n, d k * B ^ k

/-- Integer held by the bytes `b[0 .. n)`, byte `0` the most significant. -/
def be_value (b : Nat → Nat) (n : Nat) : Nat :=
  ∑ k in Finset.range n, b k * 256 ^ (n - 1 - k)

/-- Integer held by the bytes `b[0 .. n)`, byte `0` the least significant. -/
def le_value (b : Nat → Nat) (n : Nat) : Nat :=
  ∑ k in Finset.range n, b k * 256 ^ k

/-! ## Executions with their observable steps -/

/-- Observable steps of an execution: the outcome of a loop test, loads and
stores of limbs (`arr` numbers the limb array read: `0` for the first pointer
argument, `1` for the second), loads and stores of bytes, and shifts of a limb
with their shift amount. -/
inductive Event
  | test (taken : Bool)
  | limb_load (arr : Nat) (idx : Nat)
  | limb_store (idx : Nat)
  | byte_load (idx : Nat)
  | byte_store (idx : Nat)
  | shift (amount : Nat)
  deriving DecidableEq

/-- Function `vec_is_zero` together with the steps it performs: each round of
the loop passes the test `i < num` and loads `ap[i]`; the loop ends with a
failed test.  `is_zero` is straight-line code on the accumulator. -/
def vec_is_zero_traced (ap : Nat → Nat) (num : Nat) : Nat × List Event :=
  let st := (List.range (num / sizeof_limb_t)).foldl
    (fun st i => (st.1 ||| ap i, st.2 ++ [Event.test true, Event.limb_load 0 i]))
    ((0 : Nat), ([] : List Event))
  (is_zero st.1, st.2 ++ [Event.test false])

/-- Function `vec_is_equal` together with the steps it performs: each round of
the loop passes the test `i < num` and loads `ap[i]` and `bp[i]`. -/
def vec_is_equal_traced (ap bp : Nat → Nat) (num : Nat) : Nat × List Event :=
  let st := (List.range (num / sizeof_limb_t)).foldl
    (fun st i => (st.1 ||| (ap i ^^^ bp i),
      st.2 ++ [Event.test true, Event.limb_load 0 i, Event.limb_load 1 i]))
    ((0 : Nat), ([] : List Event))
  (is_zero st.1, st.2 ++ [Event.test false])

/-- Indices of the limbs loaded from array `arr`, in the order of the loads. -/
def loads_of (arr : Nat) : List Event → List Nat
  | [] => []
  | Event.limb_load a i :: es => if a = arr then i :: loads_of arr es else loads_of arr es
  | _ :: es => loads_of arr es

/-- Outcomes of the tests of an execution, in order: its control-flow path. -/
def tests_of : List Event → List Bool
  | [] => []
  | Event.test t :: es => t :: tests_of es
  | _ :: es => tests_of es

/-- Loop of `limbs_from_be_bytes` together with its steps: each round shifts
the accumulator by 8, loads the byte `in[p]` and stores the limb `ret[n / 8]`. -/
def limbs_from_be_bytes_traced (inp : Nat → Nat) :
    Nat → Nat → Nat → (Nat → Nat) → (Nat → Nat) × List Event
  | 0, _, _, ret => (ret, [])
  | n + 1, p, limb, ret =>
    let limb1 := limb_shl8 limb ||| inp p
    let rest := limbs_from_be_bytes_traced inp n (p + 1) limb1
      (Function.update ret (n / sizeof_limb_t) limb1)
    (rest.1, [Event.shift 8, Event.byte_load p, Event.limb_store (n / sizeof_limb_t)]
      ++ rest.2)

/-- Loop of `be_bytes_from_limbs` together with its steps: each round loads
the limb `in[n / 8]`, shifts it by `8 * (n % 8)` and stores the byte `out[p]`. -/
def be_bytes_from_limbs_traced (inp : Nat → Nat) :
    Nat → Nat → (Nat → Nat) → (Nat → Nat) × List Event
  | 0, _, out => (out, [])
  | n + 1, p, out =>
    let limb := inp (n / sizeof_limb_t)
    let rest := be_bytes_from_limbs_traced inp n (p + 1)
      (Function.update out p (to_uchar (limb >>> (8 * (n % sizeof_limb_t)))))
    (rest.1, [Event.limb_load 0 (n / sizeof_limb_t), Event.shift (8 * (n % sizeof_limb_t)),
      Event.byte_store p] ++ rest.2)

/-- Loop of `limbs_from_le_bytes` together with its steps: each round shifts
the accumulator by 8, loads the byte `in[n]` and stores the limb `ret[n / 8]`. -/
def limbs_from_le_bytes_traced (inp : Nat → Nat) :
    Nat → Nat → (Nat → Nat) → (Nat → Nat) × List Event
  | 0, _, ret => (ret, [])
  | n + 1, limb, ret =>
    let limb1 := limb_shl8 limb ||| inp n
    let rest := limbs_from_le_bytes_traced inp n limb1
      (Function.update ret (n / sizeof_limb_t) limb1)
    (rest.1, [Event.shift 8, Event.byte_load n, Event.limb_store (n / sizeof_limb_t)]
      ++ rest.2)

/-- Inner loop of `le_bytes_from_limbs` together with its steps: each round
stores the byte `out[p]` and shifts the limb by 8. -/
def le_store_limb_traced :
    Nat → Nat → Nat → (Nat → Nat) → (Nat × (Nat → Nat)) × List Event
  | 0, _, p, out => ((p, out), [])
  | cnt + 1, limb, p, out =>
    let rest := le_store_limb_traced cnt (limb >>> 8) (p + 1)
      (Function.update out p (to_uchar limb))
    (rest.1, [Event.byte_store p, Event.shift 8] ++ rest.2)

/-- Outer loop of `le_bytes_from_limbs` together with its steps: each round
loads the limb `in[i]` and runs the inner loop for its 8 bytes. -/
def le_bytes_whole_limbs_traced (inp : Nat → Nat) (k : Nat) (out : Nat → Nat) :
    (Nat × (Nat → Nat)) × List Event :=
  (List.range k).foldl
    (fun st i =>
      let inner := le_store_limb_traced sizeof_limb_t (inp i) st.1.1 st.1.2
      (inner.1, st.2 ++ Event.limb_load 0 i :: inner.2))
    ((0, out), [])

/-- Function `le_bytes_from_limbs` together with its steps. -/
def le_bytes_from_limbs_traced (same little : Bool) (out : Nat → Nat) (inp : Nat → Nat)
    (n : Nat) : (Nat → Nat) × List Event :=
  if same && little then (out, [])
  else
    let r := n % sizeof_limb_t
    let k := n / sizeof_limb_t
    let st := le_bytes_whole_limbs_traced inp k out
    if r ≠ 0 then
      let inner := le_store_limb_traced r (inp k) st.1.1 st.1.2
      (inner.1.2, st.2 ++ Event.limb_load 0 k :: inner.2)
    else (st.1.2, st.2)

/-- A step stays within a byte buffer of `n` bytes and a limb array of
`ceil(n / 8)` limbs, and shifts by less than the limb width: byte indices are
below `n`, limb indices are at most `(n - 1) / 8` with `n` positive, shift
amounts are below 64. -/
def Event.in_bounds (n : Nat) : Event → Prop
  | Event.test _ => True
  | Event.limb_load _ i => 0 < n ∧ i ≤ (n - 1) / 8
  | Event.limb_store i => 0 < n ∧ i ≤ (n - 1) / 8
  | Event.byte_load k => k < n
  | Event.byte_store k => k < n
  | Event.shift amount => amount < 64

/-- Number of byte steps of an execution: loads and stores of a byte. -/
def byte_steps : List Event → Nat
  | [] => 0
  | Event.byte_load _ :: es => byte_steps es + 1
  | Event.byte_store _ :: es => byte_steps es + 1
  | _ :: es => byte_steps es

/-! ## Host byte order and aliased storage -/

/-- The value of `sizeof(long)`.  It is 4 on some of the supported platforms;
the first byte of the representation of `1` does not depend on it. -/
def sizeof_long : Nat := 8

/-- Byte `j` of the object representation of an unsigned integer `x` stored in
`width` bytes: the least significant byte comes first on a little-endian host
and the most significant byte comes first on a big-endian host. -/
def object_byte (host_little : Bool) (width x j : Nat) : Nat :=
  if host_little then x / 256 ^ j % 256 else x / 256 ^ (width - 1 - j) % 256

/-- Member `little` of the union `is_endian = { 1 }` of `le_bytes_from_limbs`:
the first byte of the representation of the `long` value `1`. -/
def is_endian_little (host_little : Bool) : Nat :=
  object_byte host_little sizeof_long 1 0

/-- Load of limb `i` of an array of limbs that occupies the byte storage `mem`
from offset `0`: the eight bytes `mem[8 * i .. 8 * i + 7]` read in the byte
order of the host. -/
def load_limb (host_little : Bool) (mem : Nat → Nat) (i : Nat) : Nat :=
  if host_little then le_value (fun j => mem (8 * i + j)) 8
  else be_value (fun j => mem (8 * i + j)) 8

/-- Function `le_bytes_from_limbs` called with `out` and `in` pointing to the
same storage, the byte memory `mem`, so that `(uptr_t)out == (uptr_t)in`
holds.  Every load of a limb reads the bytes as the stores made so far have
left them. -/
def le_bytes_from_limbs_aliased (host_little : Bool) (mem : Nat → Nat) (n : Nat) :
    Nat → Nat :=
  if is_endian_little host_little ≠ 0 then mem
  else
    let r := n % sizeof_limb_t
    let k := n / sizeof_limb_t
    let st := (List.range k).foldl
      (fun st i => le_store_limb sizeof_limb_t (load_limb host_little st.2 i) st.1 st.2)
      (0, mem)
    if r ≠ 0 then (le_store_limb r (load_limb host_little st.2 k) st.1 st.2).2 else st.2

/-- Load of the limb at byte address `addr` of the byte memory `mem`: the
eight bytes `mem[addr .. addr + 7]` read in the byte order of the host. -/
def load_limb_at (host_little : Bool) (mem : Nat → Nat) (addr : Nat) : Nat :=
  if host_little then le_value (fun j => mem (addr + j)) 8
  else be_value (fun j => mem (addr + j)) 8

/-- Loop of `be_bytes_from_limbs` on one byte-addressed memory `mem`.  `inp` is
the byte address the pointer `in` refers to and `outp` the address the moving
pointer `out` refers to.  Each round loads the limb `in[n / 8]` from the
memory as the stores made so far have left it, then stores one byte through
`out`. -/
def be_bytes_from_limbs_mem_loop (host_little : Bool) (inp : Nat) :
    Nat → Nat → (Nat → Nat) → (Nat → Nat)
  | 0, _, mem => mem
  | n + 1, outp, mem =>
    let limb := load_limb_at host_little mem (inp + sizeof_limb_t * (n / sizeof_limb_t))
    be_bytes_from_limbs_mem_loop host_little inp n (outp + 1)
      (Function.update mem outp (to_uchar (limb >>> (8 * (n % sizeof_limb_t)))))

/-- Function `be_bytes_from_limbs` on one byte-addressed memory, `out` and
`inp` being the byte addresses of the two pointer arguments.  The pointers are
not `restrict`: the destination may be the limb storage itself or overlap
it. -/
def be_bytes_from_limbs_mem (host_little : Bool) (mem : Nat → Nat) (out inp n : Nat) :
    Nat → Nat :=
  be_bytes_from_limbs_mem_loop host_little inp n out mem

/-! ## Montgomery engine

`vect.h` only declares the routines of the engine (`extern "C"`); their bodies
are assembly that is not among the sources.  They are modelled here from the
specification, on the integers that the `vec256` and `vec512` operands
represent. -/

/-- Modelled from the spec: one word step of the "standard Montgomery
reduction using `n0`" (the assembly body is missing).  With
`m = (t mod 2 ^ 64) * n0 mod 2 ^ 64` the value `t + m * p` is a multiple of
`2 ^ 64` and the step returns `(t + m * p) / 2 ^ 64`. -/
def mont_redc_word (p n0 t : Nat) : Nat :=
  (t + (t % 2 ^ 64 * n0 % 2 ^ 64) * p) / 2 ^ 64

/-- Modelled from the spec: `redc_mont_pasta`, declared in `vect.h` with its
assembly body missing.  Montgomery reduction of a 512-bit value: one word step
for each of the four limbs of the modulus, "followed by a conditional final
subtraction of `modulus` if the reduced value is ≥ modulus". -/
def redc_mont_pasta (a p n0 : Nat) : Nat :=
  let r := mont_redc_word p n0 (mont_redc_word p n0 (mont_redc_word p n0
    (mont_redc_word p n0 a)))
  if p ≤ r then r - p else r

/-- Modelled from the spec: `mul_mont_pasta`, declared in `vect.h` with its
assembly body missing: "compute the 512-bit product `a·b`, then apply
Montgomery reduction". -/
def mul_mont_pasta (a b p n0 : Nat) : Nat :=
  redc_mont_pasta (a * b) p n0

/-- Modelled from the spec: `from_mont_pasta`, declared in `vect.h` with its
assembly body missing: "implemented as `mont_multiply(a, one, modulus, n0)`". -/
def from_mont_pasta (a p n0 : Nat) : Nat :=
  mul_mont_pasta a 1 p n0

/-- Modelled from the spec: conversion into Montgomery form, which the spec
obtains "via `mont_multiply(x, R² mod p, p, n0)`" with `R = 2 ^ 256`; no
routine of `vect.h` is declared for it. -/
def to_mont_pasta (a p n0 : Nat) : Nat :=
  mul_mont_pasta a (2 ^ 512 % p) p n0

/-- Modelled from the spec: `add_mod_pasta`, declared in `vect.h` with its
assembly body missing: "an extended add producing a possible carry limb,
followed by a constant-time conditional subtraction of `modulus`", the result
being a 256-bit vector. -/
def add_mod_pasta (a b p : Nat) : Nat :=
  let sum := a + b
  (if p ≤ sum then sum - p else sum) % 2 ^ 256

/-- Modelled from the spec: `sub_mod_pasta`, declared in `vect.h` with its
assembly body missing: "a subtract producing a possible borrow, followed by a
constant-time conditional addition of `modulus` when a borrow occurred", on
256-bit vectors. -/
def sub_mod_pasta (a b p : Nat) : Nat :=
  let diff := (a + 2 ^ 256 - b) % 2 ^ 256
  if a < b then (diff + p) % 2 ^ 256 else diff

/-! ## Auxiliary facts on bitwise operations -/

theorem or_eq_zero_iff (a b : Nat) : a ||| b = 0 ↔ a = 0 ∧ b = 0 := by
  constructor
  · intro h
    have hb : ∀ i, (a ||| b).testBit i = false := by
      intro i
      rw [h]
      exact Nat.zero_testBit i
    constructor
    · apply Nat.zero_of_testBit_eq_false
      intro i
      have hi := hb i
      rw [Nat.testBit_or] at hi
      cases hx : a.testBit i
      · rfl
      · rw [hx] at hi
        simp at hi
    · apply Nat.zero_of_testBit_eq_false
      intro i
      have hi := hb i
      rw [Nat.testBit_or] at hi
      cases hx : b.testBit i
      · rfl
      · rw [hx] at hi
        simp at hi
  · rintro ⟨ha, hb⟩
    rw [ha, hb]
    rfl

theorem foldl_or_eq_zero_iff (f : Nat → Nat) (l : List Nat) (acc : Nat) :
    l.foldl (fun acc i => acc ||| f i) acc = 0 ↔ acc = 0 ∧ ∀ i ∈ l, f i = 0 := by
  induction l generalizing acc with
  | nil => simp
  | cons x xs ih =>
    rw [List.foldl_cons, ih, or_eq_zero_iff]
    constructor
    · rintro ⟨⟨ha, hx⟩, hxs⟩
      refine ⟨ha, ?_⟩
      intro i hi
      rcases List.mem_cons.mp hi with rfl | hi
      · exact hx
      · exact hxs i hi
    · rintro ⟨ha, hall⟩
      exact ⟨⟨ha, hall x (List.mem_cons_self x xs)⟩,
        fun i hi => hall i (List.mem_cons_of_mem x hi)⟩

theorem foldl_or_lt (f : Nat → Nat) (l : List Nat) (acc : Nat)
    (hacc : acc < 2 ^ 64) (hf : ∀ i ∈ l, f i < 2 ^ 64) :
    l.foldl (fun acc i => acc ||| f i) acc < 2 ^ 64 := by
  induction l generalizing acc with
  | nil => simpa using hacc
  | cons x xs ih =>
    rw [List.foldl_cons]
    apply ih
    · exact Nat.or_lt_two_pow hacc (hf x (List.mem_cons_self x xs))
    · intro i hi
      exact hf i (List.mem_cons_of_mem x hi)

/-- The value of `is_zero` on a 64-bit word. -/
theorem is_zero_eq (l : Nat) (h : l < 2 ^ 64) : is_zero l = if l = 0 then 1 else 0 := by
  by_cases h0 : l = 0
  · subst h0
    decide
  · rw [if_neg h0]
    unfold is_zero limb_not limb_pred LIMB_T_BITS
    rw [Nat.shiftRight_eq_div_pow]
    apply Nat.div_eq_of_lt
    by_cases hl : l < 2 ^ 63
    · have hp : (l + (2 ^ 64 - 1)) % 2 ^ 64 < 2 ^ 63 := by omega
      exact lt_of_le_of_lt Nat.and_le_right hp
    · have hn : 2 ^ 64 - 1 - l < 2 ^ 63 := by omega
      exact lt_of_le_of_lt Nat.and_le_left hn

/-- The value of `vec_is_zero` on 64-bit limbs. -/
theorem vec_is_zero_eq (a : Nat → Nat) (num : Nat) (ha : ∀ i, i < num / 8 → a i < 2 ^ 64) :
    vec_is_zero a num = if ∀ i, i < num / 8 → a i = 0 then 1 else 0 := by
  unfold vec_is_zero sizeof_limb_t
  rw [is_zero_eq]
  · simp only [foldl_or_eq_zero_iff, List.mem_range, true_and]
  · apply foldl_or_lt
    · norm_num
    · intro i hi
      exact ha i (List.mem_range.mp hi)

/-- The value of `vec_is_equal` on 64-bit limbs. -/
theorem vec_is_equal_eq (a b : Nat → Nat) (num : Nat)
    (ha : ∀ i, i < num / 8 → a i < 2 ^ 64) (hb : ∀ i, i < num / 8 → b i < 2 ^ 64) :
    vec_is_equal a b num = if ∀ i, i < num / 8 → a i = b i then 1 else 0 := by
  unfold vec_is_equal sizeof_limb_t
  rw [is_zero_eq]
  · simp only [foldl_or_eq_zero_iff (fun i => a i ^^^ b i), List.mem_range, true_and,
      Nat.xor_eq_zero]
  · apply foldl_or_lt (fun i => a i ^^^ b i)
    · norm_num
    · intro i hi
      have hi := List.mem_range.mp hi
      exact Nat.xor_lt_two_pow (ha i hi) (hb i hi)

/-! ## Digits of an integer in a fixed base -/

theorem digits_value_succ (B : Nat) (d : Nat → Nat) (n : Nat) :
    digits_value B d (n + 1) = digits_value B d n + d n * B ^ n := by
  unfold digits_value
  exact Finset.sum_range_succ _ n

theorem digits_value_lt (B : Nat) (d : Nat → Nat) (n : Nat) (hd : ∀ k, k < n → d k < B) :
    digits_value B d n < B ^ n := by
  induction n with
  | zero => simp [digits_value]
  | succ n ih =>
    rw [digits_value_succ, pow_succ]
    have h1 := ih (fun k hk => hd k (Nat.lt_succ_of_lt hk))
    have h2 : d n + 1 ≤ B := hd n (Nat.lt_succ_self n)
    calc digits_value B d n + d n * B ^ n
        < B ^ n + d n * B ^ n := by omega
      _ = (d n + 1) * B ^ n := by ring
      _ ≤ B * B ^ n := Nat.mul_le_mul_right _ h2
      _ = B ^ n * B := by ring

theorem digits_value_digit (B : Nat) (d : Nat → Nat) (n m : Nat)
    (hd : ∀ k, k < n → d k < B) (hm : m < n) :
    digits_value B d n / B ^ m % B = d m := by
  have hB : 0 < B := lt_of_le_of_lt (Nat.zero_le _) (hd m hm)
  induction n with
  | zero => omega
  | succ n ih =>
    rw [digits_value_succ]
    have hd1 : ∀ k, k < n → d k < B := fun k hk => hd k (Nat.lt_succ_of_lt hk)
    rcases Nat.lt_succ_iff_lt_or_eq.mp hm with hlt | heq
    · have hpow : B ^ n = B * B ^ (n - m - 1) * B ^ m := by
        rw [mul_assoc, ← pow_add, ← pow_succ']
        congr 1
        omega
      rw [hpow, ← mul_assoc, Nat.add_mul_div_right _ _ (pow_pos hB m), ← mul_assoc,
        mul_comm (d n) B, mul_assoc, Nat.add_mul_mod_self_left]
      exact ih hd1 hlt
    · subst heq
      rw [Nat.add_mul_div_right _ _ (pow_pos hB m),
        Nat.div_eq_of_lt (digits_value_lt B d m hd1), Nat.zero_add]
      exact Nat.mod_eq_of_lt (hd m hm)

theorem digits_value_of_div_mod (B V c : Nat) :
    digits_value B (fun i => V / B ^ i % B) c = V % B ^ c := by
  induction c with
  | zero => simp [digits_value, Nat.mod_one]
  | succ c ih =>
    rw [digits_value_succ, ih, Nat.mod_pow_succ]
    ring

theorem le_value_eq_digits (b : Nat → Nat) (n : Nat) :
    le_value b n = digits_value 256 b n := rfl

theorem be_value_eq_digits (b : Nat → Nat) (n : Nat) :
    be_value b n = digits_value 256 (fun k => b (n - 1 - k)) n := by
  unfold be_value digits_value
  rw [← Finset.sum_range_reflect (fun k => b (n - 1 - k) * 256 ^ k) n]
  apply Finset.sum_congr rfl
  intro k hk
  have hk := Finset.mem_range.mp hk
  rw [show n - 1 - (n - 1 - k) = k by omega]

theorem limbs_value_eq_digits (v : Nat → Nat) (k : Nat) :
    limbs_value v k = digits_value (2 ^ 64) v k := by
  unfold limbs_value digits_value
  apply Finset.sum_congr rfl
  intro i _
  rw [pow_mul]

theorem le_value_lt (b : Nat → Nat) (n : Nat) (hb : ∀ k, k < n → b k < 256) :
    le_value b n < 256 ^ n :=
  digits_value_lt 256 b n hb

theorem be_value_lt (b : Nat → Nat) (n : Nat) (hb : ∀ k, k < n → b k < 256) :
    be_value b n < 256 ^ n := by
  rw [be_value_eq_digits]
  exact digits_value_lt 256 _ n (fun k hk => hb (n - 1 - k) (by omega))

theorem le_value_byte (b : Nat → Nat) (n m : Nat) (hb : ∀ k, k < n → b k < 256)
    (hm : m < n) : le_value b n / 256 ^ m % 256 = b m :=
  digits_value_digit 256 b n m hb hm

theorem be_value_byte (b : Nat → Nat) (n m : Nat) (hb : ∀ k, k < n → b k < 256)
    (hm : m < n) : be_value b n / 256 ^ m % 256 = b (n - 1 - m) := by
  rw [be_value_eq_digits]
  exact digits_value_digit 256 _ n m (fun k hk => hb (n - 1 - k) (by omega)) hm

/-! ## The loops that assemble limbs from bytes -/

theorem limb_shl8_or (limb byte : Nat) (h : byte < 256) :
    limb_shl8 limb ||| byte = (limb * 256 + byte) % 2 ^ 64 := by
  unfold limb_shl8 to_limb LIMB_T_BITS
  rw [Nat.shiftLeft_eq]
  have h1 : limb * 2 ^ 8 % 2 ^ 64 = 2 ^ 8 * (limb % 2 ^ 56) := by omega
  have h2 : byte < 2 ^ 8 := by omega
  rw [h1, ← Nat.mul_add_lt_is_or h2]
  omega

/-- One step of either loop: the accumulator holds the low 64 bits of the
bytes of `V` from byte number `n` upwards. -/
theorem limb_step (V n limb byte : Nat) (hl : limb = V / 256 ^ (n + 1) % 2 ^ 64)
    (hb : byte = V / 256 ^ n % 256) :
    limb_shl8 limb ||| byte = V / 256 ^ n % 2 ^ 64 := by
  have hbyte : byte < 256 := by
    rw [hb]
    exact Nat.mod_lt _ (by norm_num)
  rw [limb_shl8_or _ _ hbyte, hl, hb, pow_succ, ← Nat.div_div_eq_div_mul]
  omega

theorem limbs_from_be_bytes_loop_eq (b : Nat → Nat) (V N : Nat)
    (hdig : ∀ m, m < N → b (N - 1 - m) = V / 256 ^ m % 256) :
    ∀ (n p limb : Nat) (ret : Nat → Nat), p + n = N → limb = V / 256 ^ n % 2 ^ 64 →
      ∀ i, limbs_from_be_bytes_loop b n p limb ret i
        = if 8 * i < n then V / 256 ^ (8 * i) % 2 ^ 64 else ret i := by
  intro n
  induction n with
  | zero =>
    intro p limb ret _ _ i
    simp [limbs_from_be_bytes_loop]
  | succ n ih =>
    intro p limb ret hp hl i
    have hbp : b p = V / 256 ^ n % 256 := by
      have h := hdig n (by omega)
      rwa [show N - 1 - n = p by omega] at h
    have hl1 := limb_step V n limb (b p) hl hbp
    simp only [limbs_from_be_bytes_loop, sizeof_limb_t]
    rw [ih (p + 1) _ _ (by omega) hl1 i, hl1]
    by_cases h1 : 8 * i < n
    · rw [if_pos h1, if_pos (by omega)]
    · rw [if_neg h1]
      by_cases h2 : 8 * i < n + 1
      · have hi : i = n / 8 := by omega
        have hn : n = 8 * i := by omega
        rw [if_pos h2, hi, Function.update_same]
        congr 3
        omega
      · have hi : i ≠ n / 8 := by omega
        rw [if_neg h2, Function.update_noteq hi]

theorem limbs_from_le_bytes_loop_eq (b : Nat → Nat) (V N : Nat)
    (hdig : ∀ m, m < N → b m = V / 256 ^ m % 256) :
    ∀ (n limb : Nat) (ret : Nat → Nat), n ≤ N → limb = V / 256 ^ n % 2 ^ 64 →
      ∀ i, limbs_from_le_bytes_loop b n limb ret i
        = if 8 * i < n then V / 256 ^ (8 * i) % 2 ^ 64 else ret i := by
  intro n
  induction n with
  | zero =>
    intro limb ret _ _ i
    simp [limbs_from_le_bytes_loop]
  | succ n ih =>
    intro limb ret hn hl i
    have hl1 := limb_step V n limb (b n) hl (hdig n (by omega))
    simp only [limbs_from_le_bytes_loop, sizeof_limb_t]
    rw [ih _ _ (by omega) hl1 i, hl1]
    by_cases h1 : 8 * i < n
    · rw [if_pos h1, if_pos (by omega)]
    · rw [if_neg h1]
      by_cases h2 : 8 * i < n + 1
      · have hi : i = n / 8 := by omega
        have hn : n = 8 * i := by omega
        rw [if_pos h2, hi, Function.update_same]
        congr 3
        omega
      · have hi : i ≠ n / 8 := by omega
        rw [if_neg h2, Function.update_noteq hi]

/-- Limbs stored by `limbs_from_be_bytes`. -/
theorem limbs_from_be_bytes_eq (ret b : Nat → Nat) (n : Nat) (hb : ∀ k, k < n → b k < 256)
    (i : Nat) :
    limbs_from_be_bytes ret b n i
      = if 8 * i < n then be_value b n / 256 ^ (8 * i) % 2 ^ 64 else ret i := by
  unfold limbs_from_be_bytes
  apply limbs_from_be_bytes_loop_eq b (be_value b n) n
  · intro m hm
    exact (be_value_byte b n m hb hm).symm
  · omega
  · rw [Nat.div_eq_of_lt (be_value_lt b n hb), Nat.zero_mod]

/-- Limbs stored by `limbs_from_le_bytes`. -/
theorem limbs_from_le_bytes_eq (ret b : Nat → Nat) (n : Nat) (hb : ∀ k, k < n → b k < 256)
    (i : Nat) :
    limbs_from_le_bytes ret b n i
      = if 8 * i < n then le_value b n / 256 ^ (8 * i) % 2 ^ 64 else ret i := by
  unfold limbs_from_le_bytes
  apply limbs_from_le_bytes_loop_eq b (le_value b n) n
  · intro m hm
    exact (le_value_byte b n m hb hm).symm
  · omega
  · rw [Nat.div_eq_of_lt (le_value_lt b n hb), Nat.zero_mod]

/-! ## The loops that emit bytes from limbs -/

theorem limbs_byte_eq (v : Nat → Nat) (m : Nat) :
    limbs_byte v m = v (m / 8) / 256 ^ (m % 8) % 256 := by
  unfold limbs_byte
  rw [Nat.shiftRight_eq_div_pow, pow_mul]
  norm_num

theorem be_bytes_from_limbs_loop_eq (inp : Nat → Nat) :
    ∀ (n p : Nat) (out : Nat → Nat) (k : Nat),
      be_bytes_from_limbs_loop inp n p out k
        = if p ≤ k ∧ k < p + n then limbs_byte inp (n - 1 - (k - p)) else out k := by
  intro n
  induction n with
  | zero =>
    intro p out k
    have h : ¬ (p ≤ k ∧ k < p + 0) := by omega
    rw [if_neg h]
    rfl
  | succ n ih =>
    intro p out k
    simp only [be_bytes_from_limbs_loop]
    rw [ih (p + 1) _ k]
    by_cases h1 : p + 1 ≤ k ∧ k < p + 1 + n
    · rw [if_pos h1, if_pos (by omega)]
      congr 1
      omega
    · rw [if_neg h1]
      by_cases h2 : k = p
      · subst h2
        rw [Function.update_same, if_pos (by omega)]
        simp only [limbs_byte, to_uchar, sizeof_limb_t]
        rw [show n + 1 - 1 - (k - k) = n by omega]
      · rw [Function.update_noteq h2, if_neg (by omega)]

/-- Bytes stored by `be_bytes_from_limbs`. -/
theorem be_bytes_from_limbs_eq (out inp : Nat → Nat) (n k : Nat) :
    be_bytes_from_limbs out inp n k
      = if k < n then limbs_byte inp (n - 1 - k) else out k := by
  unfold be_bytes_from_limbs
  rw [be_bytes_from_limbs_loop_eq]
  by_cases h : k < n
  · rw [if_pos h, if_pos (by omega)]
    rfl
  · rw [if_neg h, if_neg (by omega)]

theorem le_store_limb_eq :
    ∀ (cnt limb p : Nat) (out : Nat → Nat),
      le_store_limb cnt limb p out
        = (p + cnt, fun k => if p ≤ k ∧ k < p + cnt then limb / 256 ^ (k - p) % 256
            else out k) := by
  intro cnt
  induction cnt with
  | zero =>
    intro limb p out
    simp only [le_store_limb]
    refine Prod.ext rfl ?_
    funext k
    have h : ¬ (p ≤ k ∧ k < p + 0) := by omega
    simp only [if_neg h]
  | succ cnt ih =>
    intro limb p out
    simp only [le_store_limb]
    rw [ih]
    refine Prod.ext (by simp only; omega) ?_
    funext k
    simp only
    by_cases h1 : p + 1 ≤ k ∧ k < p + 1 + cnt
    · rw [if_pos h1, if_pos (by omega), Nat.shiftRight_eq_div_pow,
        Nat.div_div_eq_div_mul, show k - p = (k - (p + 1)) + 1 by omega,
        pow_succ' 256 (k - (p + 1))]
    · rw [if_neg h1]
      by_cases h2 : k = p
      · subst h2
        rw [Function.update_same, if_pos (by omega), Nat.sub_self, pow_zero, Nat.div_one]
        rfl
      · rw [Function.update_noteq h2, if_neg (by omega)]

theorem le_bytes_whole_limbs_eq (inp : Nat → Nat) (out : Nat → Nat) :
    ∀ k, le_bytes_whole_limbs inp k out
      = (8 * k, fun x => if x < 8 * k then limbs_byte inp x else out x) := by
  intro k
  induction k with
  | zero =>
    refine Prod.ext rfl ?_
    funext x
    simp [le_bytes_whole_limbs]
  | succ k ih =>
    unfold le_bytes_whole_limbs at ih ⊢
    rw [List.range_succ, List.foldl_append, ih]
    simp only [List.foldl_cons, List.foldl_nil, sizeof_limb_t]
    rw [le_store_limb_eq]
    refine Prod.ext (by simp only; omega) ?_
    funext x
    simp only
    by_cases h1 : 8 * k ≤ x ∧ x < 8 * k + 8
    · rw [if_pos h1, if_pos (by omega), limbs_byte_eq,
        show x / 8 = k by omega, show x % 8 = x - 8 * k by omega]
    · rw [if_neg h1]
      by_cases h2 : x < 8 * k
      · rw [if_pos h2, if_pos (by omega)]
      · rw [if_neg h2, if_neg (by omega)]

/-- Bytes stored by `le_bytes_from_limbs` when the early return is not taken. -/
theorem le_bytes_from_limbs_eq (same little : Bool) (hsl : (same && little) = false)
    (out inp : Nat → Nat) (n k : Nat) :
    le_bytes_from_limbs same little out inp n k
      = if k < n then limbs_byte inp k else out k := by
  unfold le_bytes_from_limbs
  rw [hsl]
  simp only [Bool.false_eq_true, if_false, sizeof_limb_t]
  rw [le_bytes_whole_limbs_eq]
  by_cases hr : n % 8 ≠ 0
  · rw [if_pos hr, le_store_limb_eq]
    simp only
    by_cases h1 : 8 * (n / 8) ≤ k ∧ k < 8 * (n / 8) + n % 8
    · rw [if_pos h1, if_pos (by omega), limbs_byte_eq,
        show k / 8 = n / 8 by omega, show k % 8 = k - 8 * (n / 8) by omega]
    · rw [if_neg h1]
      by_cases h2 : k < 8 * (n / 8)
      · rw [if_pos h2, if_pos (by omega)]
      · rw [if_neg h2, if_neg (by omega)]
  · rw [if_neg hr]
    simp only
    by_cases h2 : k < 8 * (n / 8)
    · rw [if_pos h2, if_pos (by omega)]
    · rw [if_neg h2, if_neg (by omega)]

/-! ## Bytes of the limbs of an integer -/

theorem div_mod_limb_byte (W j : Nat) (hj : j < 8) :
    W % 2 ^ 64 / 256 ^ j % 256 = W / 256 ^ j % 256 := by
  interval_cases j <;> omega

theorem limbs_byte_of_value (v : Nat → Nat) (V m : Nat)
    (hv : v (m / 8) = V / 256 ^ (8 * (m / 8)) % 2 ^ 64) :
    limbs_byte v m = V / 256 ^ m % 256 := by
  rw [limbs_byte_eq, hv, div_mod_limb_byte _ _ (Nat.mod_lt m (by norm_num)),
    Nat.div_div_eq_div_mul, ← pow_add, Nat.div_add_mod]

theorem byte_of_low_bytes (x j r : Nat) (hjr : j < r) :
    x % 256 ^ r / 256 ^ j % 256 = x / 256 ^ j % 256 := by
  have hr : r = j + ((r - j - 1) + 1) := by omega
  rw [hr, pow_add, Nat.mod_mul_right_div_self, pow_succ]
  exact Nat.mod_mod_of_dvd _ (Dvd.intro_left _ rfl)

theorem limbs_value_of_limbs (v : Nat → Nat) (V c : Nat)
    (hv : ∀ i, i < c → v i = V / 256 ^ (8 * i) % 2 ^ 64) :
    limbs_value v c = V % (2 ^ 64) ^ c := by
  rw [limbs_value_eq_digits, ← digits_value_of_div_mod]
  unfold digits_value
  apply Finset.sum_congr rfl
  intro i hi
  rw [hv i (Finset.mem_range.mp hi), pow_mul]
  norm_num

theorem limbs_byte_of_limbs_value (v : Nat → Nat) (c m : Nat)
    (hv : ∀ i, i < c → v i < 2 ^ 64) (hm : m < 8 * c) :
    limbs_byte v m = limbs_value v c / 256 ^ m % 256 := by
  apply limbs_byte_of_value
  have h := digits_value_digit (2 ^ 64) v c (m / 8) hv (by omega)
  rw [limbs_value_eq_digits, ← h, pow_mul]
  norm_num

theorem pow_bytes_le_pow_limbs (n : Nat) : 256 ^ n ≤ (2 ^ 64) ^ limbs_for n := by
  rw [show (256 : Nat) = 2 ^ 8 by norm_num, ← pow_mul, ← pow_mul]
  apply Nat.pow_le_pow_right (by norm_num)
  unfold limbs_for
  omega

theorem be_value_succ (b : Nat → Nat) (n : Nat) :
    be_value b (n + 1) = be_value b n * 256 + b n := by
  unfold be_value
  rw [Finset.sum_range_succ, Finset.sum_mul]
  congr 1
  · apply Finset.sum_congr rfl
    intro k hk
    have hk := Finset.mem_range.mp hk
    rw [mul_assoc, ← pow_succ]
    congr 2
    omega
  · simp

theorem be_value_div (b : Nat → Nat) (n : Nat) (hb : ∀ k, k < n → b k < 256) :
    ∀ j, j ≤ n → be_value b n / 256 ^ j = be_value b (n - j) := by
  intro j
  induction j with
  | zero => simp
  | succ j ih =>
    intro hj
    rw [pow_succ, ← Nat.div_div_eq_div_mul, ih (by omega)]
    obtain ⟨m, hm⟩ : ∃ m, n - j = m + 1 := ⟨n - j - 1, by omega⟩
    have hbm : b m < 256 := hb m (by omega)
    rw [hm, be_value_succ, show n - (j + 1) = m by omega]
    omega

theorem le_value_add (b : Nat → Nat) (m : Nat) :
    ∀ r, le_value b (m + r) = le_value b m + 256 ^ m * le_value (fun j => b (m + j)) r := by
  intro r
  induction r with
  | zero => simp [le_value]
  | succ r ih =>
    simp only [le_value_eq_digits] at ih ⊢
    rw [← Nat.add_assoc, digits_value_succ, ih, digits_value_succ, pow_add]
    ring

/-! ## Stores of `vec_zero` and `vec_copy` -/

theorem vec_zero_eq (rp : Nat → Nat) (num i : Nat) :
    vec_zero rp num i = if i < num / 8 then 0 else rp i := by
  unfold vec_zero sizeof_limb_t
  generalize num / 8 = k
  induction k with
  | zero => simp
  | succ k ih =>
    rw [List.range_succ, List.foldl_append]
    simp only [List.foldl_cons, List.foldl_nil]
    by_cases h : i = k
    · subst h
      rw [Function.update_same, if_pos (by omega)]
    · rw [Function.update_noteq h, ih]
      by_cases h1 : i < k
      · rw [if_pos h1, if_pos (by omega)]
      · rw [if_neg h1, if_neg (by omega)]

theorem vec_copy_eq (mem : Nat → Nat) (ret a num : Nat)
    (hd : ret + num / 8 ≤ a ∨ a + num / 8 ≤ ret) (x : Nat) :
    vec_copy mem ret a num x
      = if ret ≤ x ∧ x < ret + num / 8 then mem (a + (x - ret)) else mem x := by
  unfold vec_copy sizeof_limb_t
  have key : ∀ j, j ≤ num / 8 → ∀ x,
      (List.range j).foldl (fun m i => Function.update m (ret + i) (m (a + i))) mem x
        = if ret ≤ x ∧ x < ret + j then mem (a + (x - ret)) else mem x := by
    intro j
    induction j with
    | zero =>
      intro _ x
      have h : ¬ (ret ≤ x ∧ x < ret + 0) := by omega
      rw [if_neg h, List.range_zero, List.foldl_nil]
    | succ j ih =>
      intro hj x
      rw [List.range_succ, List.foldl_append]
      simp only [List.foldl_cons, List.foldl_nil]
      by_cases h : x = ret + j
      · subst h
        rw [Function.update_same, ih (by omega), if_neg (by omega), if_pos (by omega)]
        congr 1
        omega
      · rw [Function.update_noteq h, ih (by omega)]
        by_cases h1 : ret ≤ x ∧ x < ret + j
        · rw [if_pos h1, if_pos (by omega)]
        · rw [if_neg h1, if_neg (by omega)]
  exact key (num / 8) (le_refl _) x

/-! ## Claims on the zero and equality tests -/

/-- C1: for every 64-bit word `l`, `is_zero l` is exactly `1` when `l = 0` and
exactly `0` when `l ≠ 0`, with `l - 1` computed modulo `2 ^ 64`; the result is
therefore always `0` or `1`. -/
theorem C1_is_zero_boolean (l : Nat) (h : l < 2 ^ 64) :
    (l = 0 → is_zero l = 1) ∧ (l ≠ 0 → is_zero l = 0) ∧
      (is_zero l = 0 ∨ is_zero l = 1) := by
  rw [is_zero_eq l h]
  by_cases h0 : l = 0
  · simp [h0]
  · simp [h0]

theorem C1_is_zero_boolean_witness :
    (2 ^ 63 = 0 → is_zero (2 ^ 63) = 1) ∧ (2 ^ 63 ≠ 0 → is_zero (2 ^ 63) = 0) ∧
      (is_zero (2 ^ 63) = 0 ∨ is_zero (2 ^ 63) = 1) :=
  C1_is_zero_boolean (2 ^ 63) (by norm_num)

/-- C2: for every vector `a` of 64-bit limbs and every byte count `num`, in
particular every multiple of 8 such as 32 and 64, `vec_is_zero a num` is `1`
if and only if each of the `num / 8` limbs of `a` is `0`, and is `0`
otherwise. -/
theorem C2_vec_is_zero_iff (a : Nat → Nat) (num : Nat)
    (ha : ∀ i, i < num / 8 → a i < 2 ^ 64) :
    (vec_is_zero a num = 1 ↔ ∀ i, i < num / 8 → a i = 0) ∧
      (¬ (∀ i, i < num / 8 → a i = 0) → vec_is_zero a num = 0) := by
  rw [vec_is_zero_eq a num ha]
  by_cases hz : ∀ i, i < num / 8 → a i = 0
  · simp [hz]
  · simp [hz]

theorem C2_vec_is_zero_iff_witness :
    (vec_is_zero (fun i => if i = 3 then 5 else 0) 32 = 1 ↔
        ∀ i, i < 32 / 8 → (fun i => if i = 3 then 5 else 0) i = 0) ∧
      (¬ (∀ i, i < 32 / 8 → (fun i => if i = 3 then 5 else 0) i = 0) →
        vec_is_zero (fun i => if i = 3 then 5 else 0) 32 = 0) :=
  C2_vec_is_zero_iff (fun i => if i = 3 then 5 else 0) 32
    (by intro i _; dsimp only; split <;> norm_num)

/-- C3: for vectors `v`, `w` of `num / 8` 64-bit limbs and every byte count
`num`, in particular every multiple of 8: `vec_is_equal v v num` is `1`;
`vec_is_equal v w num` is `1` if and only if `v i = w i` for every
`i < num / 8`; and it is `0` whenever `v` and `w` differ in at least one of
those limbs. -/
theorem C3_vec_is_equal_iff (v w : Nat → Nat) (num : Nat)
    (hv : ∀ i, i < num / 8 → v i < 2 ^ 64) (hw : ∀ i, i < num / 8 → w i < 2 ^ 64) :
    vec_is_equal v v num = 1 ∧
      (vec_is_equal v w num = 1 ↔ ∀ i, i < num / 8 → v i = w i) ∧
      ((∃ i, i < num / 8 ∧ v i ≠ w i) → vec_is_equal v w num = 0) := by
  rw [vec_is_equal_eq v v num hv hv, vec_is_equal_eq v w num hv hw]
  refine ⟨by simp, ?_, ?_⟩
  · by_cases he : ∀ i, i < num / 8 → v i = w i
    · simp [he]
    · simp [he]
  · rintro ⟨i, hi, hne⟩
    rw [if_neg]
    intro hall
    exact hne (hall i hi)

theorem C3_vec_is_equal_iff_witness :
    vec_is_equal (fun i => i) (fun i => i) 32 = 1 ∧
      (vec_is_equal (fun i => i) (fun i => if i = 2 then 7 else i) 32 = 1 ↔
        ∀ i, i < 32 / 8 → (fun i => i) i = (fun i => if i = 2 then 7 else i) i) ∧
      ((∃ i, i < 32 / 8 ∧ (fun i => i) i ≠ (fun i => if i = 2 then 7 else i) i) →
        vec_is_equal (fun i => i) (fun i => if i = 2 then 7 else i) 32 = 0) :=
  C3_vec_is_equal_iff (fun i => i) (fun i => if i = 2 then 7 else i) 32
    (by intro i hi; dsimp only; omega)
    (by intro i hi; dsimp only; split <;> omega)

/-! ## Claims on the byte conversions -/

/-- C5: little-endian round trip.  For every byte count `n` (in particular 32)
and every sequence `b` of `n` bytes, `le_bytes_from_limbs` with length `n`,
writing to a buffer that is not the limb storage, applied to the limbs stored
by `limbs_from_le_bytes` from `b` with length `n` writes exactly `b`, on a
host of either endianness. -/
theorem C5_le_bytes_round_trip (little : Bool) (ret out b : Nat → Nat) (n : Nat)
    (hb : ∀ k, k < n → b k < 256) :
    ∀ k, k < n →
      le_bytes_from_limbs false little out (limbs_from_le_bytes ret b n) n k = b k := by
  intro k hk
  have hlimb : limbs_from_le_bytes ret b n (k / 8)
      = le_value b n / 256 ^ (8 * (k / 8)) % 2 ^ 64 := by
    rw [limbs_from_le_bytes_eq ret b n hb, if_pos (by omega)]
  rw [le_bytes_from_limbs_eq false little (Bool.false_and little), if_pos hk,
    limbs_byte_of_value _ (le_value b n) _ hlimb, le_value_byte b n _ hb hk]

theorem C5_le_bytes_round_trip_witness :
    le_bytes_from_limbs false true (fun _ => 0)
      (limbs_from_le_bytes (fun _ => 0) (fun k => 7 * k + 1) 32) 32 5 = 36 :=
  C5_le_bytes_round_trip true (fun _ => 0) (fun _ => 0) (fun k => 7 * k + 1) 32
    (by intro k hk; dsimp only; omega) 5 (by decide)

/-- C6: for every `n` and every sequence `b` of `n` bytes, after
`limbs_from_be_bytes ret b n` the limbs `0 .. ceil(n / 8) - 1`, read
least-significant limb first, hold the integer `∑ k, b k * 256 ^ (n - 1 - k)`
without any reduction, whatever `ret` held before; each of these limbs is a
64-bit word; and when `n` is not a multiple of 8 the top limb `n / 8` holds
the leading `n mod 8` bytes only, so that it is below `256 ^ (n mod 8)`. -/
theorem C6_limbs_from_be_bytes_value (ret b : Nat → Nat) (n : Nat)
    (hb : ∀ k, k < n → b k < 256) :
    limbs_value (limbs_from_be_bytes ret b n) (limbs_for n)
        = ∑ k in Finset.range n, b k * 256 ^ (n - 1 - k) ∧
      (∀ i, i < limbs_for n → limbs_from_be_bytes ret b n i < 2 ^ 64) ∧
      (n % 8 ≠ 0 →
        limbs_from_be_bytes ret b n (n / 8)
            = ∑ k in Finset.range (n % 8), b k * 256 ^ (n % 8 - 1 - k) ∧
          limbs_from_be_bytes ret b n (n / 8) < 256 ^ (n % 8)) := by
  have hlimb : ∀ i, i < limbs_for n →
      limbs_from_be_bytes ret b n i = be_value b n / 256 ^ (8 * i) % 2 ^ 64 := by
    intro i hi
    unfold limbs_for at hi
    rw [limbs_from_be_bytes_eq ret b n hb, if_pos (by omega)]
  refine ⟨?_, ?_, ?_⟩
  · rw [limbs_value_of_limbs _ (be_value b n) _ hlimb]
    exact Nat.mod_eq_of_lt
      (lt_of_lt_of_le (be_value_lt b n hb) (pow_bytes_le_pow_limbs n))
  · intro i hi
    rw [hlimb i hi]
    exact Nat.mod_lt _ (by norm_num)
  · intro hr
    have htop : limbs_from_be_bytes ret b n (n / 8) = be_value b (n % 8) := by
      have hlt : be_value b (n % 8) < 256 ^ (n % 8) :=
        be_value_lt b (n % 8) (fun k hk => hb k (by omega))
      have hle : 256 ^ (n % 8) ≤ 256 ^ 8 :=
        Nat.pow_le_pow_right (by norm_num) (by omega)
      rw [hlimb (n / 8) (by unfold limbs_for; omega), be_value_div b n hb _ (by omega),
        show n - 8 * (n / 8) = n % 8 by omega]
      apply Nat.mod_eq_of_lt
      calc be_value b (n % 8) < 256 ^ (n % 8) := hlt
        _ ≤ 256 ^ 8 := hle
        _ = 2 ^ 64 := by norm_num
    rw [htop]
    exact ⟨rfl, be_value_lt b (n % 8) (fun k hk => hb k (by omega))⟩

theorem C6_limbs_from_be_bytes_value_witness :
    limbs_value (limbs_from_be_bytes (fun i => i + 99) (fun k => 7 * k + 1) 35) (limbs_for 35)
        = ∑ k in Finset.range 35, (fun k => 7 * k + 1) k * 256 ^ (35 - 1 - k) ∧
      (∀ i, i < limbs_for 35 →
        limbs_from_be_bytes (fun i => i + 99) (fun k => 7 * k + 1) 35 i < 2 ^ 64) ∧
      (35 % 8 ≠ 0 →
        limbs_from_be_bytes (fun i => i + 99) (fun k => 7 * k + 1) 35 (35 / 8)
            = ∑ k in Finset.range (35 % 8), (fun k => 7 * k + 1) k * 256 ^ (35 % 8 - 1 - k) ∧
          limbs_from_be_bytes (fun i => i + 99) (fun k => 7 * k + 1) 35 (35 / 8)
            < 256 ^ (35 % 8)) :=
  C6_limbs_from_be_bytes_value (fun i => i + 99) (fun k => 7 * k + 1) 35
    (by intro k hk; dsimp only; omega)

/-- C7: for every `n` and every sequence `b` of `n` bytes, after
`limbs_from_le_bytes ret b n` the limbs `0 .. ceil(n / 8) - 1`, read
least-significant limb first, hold the integer `∑ k, b k * 256 ^ k`, whatever
`ret` held before; each of these limbs is a 64-bit word; and when `n` is not a
multiple of 8 the top limb `n / 8` holds the trailing `n mod 8` bytes only, so
that it is below `256 ^ (n mod 8)`. -/
theorem C7_limbs_from_le_bytes_value (ret b : Nat → Nat) (n : Nat)
    (hb : ∀ k, k < n → b k < 256) :
    limbs_value (limbs_from_le_bytes ret b n) (limbs_for n)
        = ∑ k in Finset.range n, b k * 256 ^ k ∧
      (∀ i, i < limbs_for n → limbs_from_le_bytes ret b n i < 2 ^ 64) ∧
      (n % 8 ≠ 0 →
        limbs_from_le_bytes ret b n (n / 8)
            = ∑ j in Finset.range (n % 8), b (8 * (n / 8) + j) * 256 ^ j ∧
          limbs_from_le_bytes ret b n (n / 8) < 256 ^ (n % 8)) := by
  have hlimb : ∀ i, i < limbs_for n →
      limbs_from_le_bytes ret b n i = le_value b n / 256 ^ (8 * i) % 2 ^ 64 := by
    intro i hi
    unfold limbs_for at hi
    rw [limbs_from_le_bytes_eq ret b n hb, if_pos (by omega)]
  refine ⟨?_, ?_, ?_⟩
  · rw [limbs_value_of_limbs _ (le_value b n) _ hlimb]
    exact Nat.mod_eq_of_lt
      (lt_of_lt_of_le (le_value_lt b n hb) (pow_bytes_le_pow_limbs n))
  · intro i hi
    rw [hlimb i hi]
    exact Nat.mod_lt _ (by norm_num)
  · intro hr
    have hlt : le_value (fun j => b (8 * (n / 8) + j)) (n % 8) < 256 ^ (n % 8) :=
      le_value_lt _ (n % 8) (fun k hk => hb _ (by omega))
    have htop : limbs_from_le_bytes ret b n (n / 8)
        = le_value (fun j => b (8 * (n / 8) + j)) (n % 8) := by
      have hle : 256 ^ (n % 8) ≤ 256 ^ 8 :=
        Nat.pow_le_pow_right (by norm_num) (by omega)
      have hsplit := le_value_add b (8 * (n / 8)) (n % 8)
      rw [Nat.div_add_mod] at hsplit
      rw [hlimb (n / 8) (by unfold limbs_for; omega), hsplit,
        Nat.add_mul_div_left _ _ (by positivity),
        Nat.div_eq_of_lt (le_value_lt b _ (fun k hk => hb k (by omega))), Nat.zero_add]
      apply Nat.mod_eq_of_lt
      calc le_value (fun j => b (8 * (n / 8) + j)) (n % 8) < 256 ^ (n % 8) := hlt
        _ ≤ 256 ^ 8 := hle
        _ = 2 ^ 64 := by norm_num
    rw [htop]
    exact ⟨rfl, hlt⟩

theorem C7_limbs_from_le_bytes_value_witness :
    limbs_value (limbs_from_le_bytes (fun i => i + 99) (fun k => 7 * k + 1) 35) (limbs_for 35)
        = ∑ k in Finset.range 35, (fun k => 7 * k + 1) k * 256 ^ k ∧
      (∀ i, i < limbs_for 35 →
        limbs_from_le_bytes (fun i => i + 99) (fun k => 7 * k + 1) 35 i < 2 ^ 64) ∧
      (35 % 8 ≠ 0 →
        limbs_from_le_bytes (fun i => i + 99) (fun k => 7 * k + 1) 35 (35 / 8)
            = ∑ j in Finset.range (35 % 8), (fun k => 7 * k + 1) (8 * (35 / 8) + j) * 256 ^ j ∧
          limbs_from_le_bytes (fun i => i + 99) (fun k => 7 * k + 1) 35 (35 / 8)
            < 256 ^ (35 % 8)) :=
  C7_limbs_from_le_bytes_value (fun i => i + 99) (fun k => 7 * k + 1) 35
    (by intro k hk; dsimp only; omega)

/-! ## Claims on clearing and copying -/

/-- C9: for every limb vector `v` and every byte count `num`, in particular
every multiple of 8, after `vec_zero v num` each of the first `num / 8` limbs
is `0`, so that `vec_is_zero` of the result with the same `num` is `1`,
whatever `v` held before. -/
theorem C9_vec_zero_is_zero (v : Nat → Nat) (num : Nat) :
    (∀ i, i < num / 8 → vec_zero v num i = 0) ∧
      vec_is_zero (vec_zero v num) num = 1 := by
  have hz : ∀ i, i < num / 8 → vec_zero v num i = 0 := by
    intro i hi
    rw [vec_zero_eq, if_pos hi]
  refine ⟨hz, ?_⟩
  rw [vec_is_zero_eq _ _ (fun i hi => by rw [hz i hi]; norm_num), if_pos hz]

/-- C10: for a source at limb position `a` and a destination at limb position
`ret` of one memory, the two ranges of `num / 8` limbs being disjoint, and the
source limbs being 64-bit words: after `vec_copy` limb `i` of the destination
equals limb `i` of the source as it was, for every `i < num / 8`; the source
is unchanged; the limbs of the destination from index `num / 8` on are
unchanged; and `vec_is_equal` of destination and source with the same `num`
is `1`. -/
theorem C10_vec_copy_copies (mem : Nat → Nat) (ret a num : Nat)
    (hd : ret + num / 8 ≤ a ∨ a + num / 8 ≤ ret)
    (ha : ∀ i, i < num / 8 → mem (a + i) < 2 ^ 64) :
    (∀ i, i < num / 8 → vec_copy mem ret a num (ret + i) = mem (a + i)) ∧
      (∀ i, i < num / 8 → vec_copy mem ret a num (a + i) = mem (a + i)) ∧
      (∀ i, num / 8 ≤ i → vec_copy mem ret a num (ret + i) = mem (ret + i)) ∧
      vec_is_equal (fun i => vec_copy mem ret a num (ret + i))
        (fun i => vec_copy mem ret a num (a + i)) num = 1 := by
  have hdst : ∀ i, i < num / 8 → vec_copy mem ret a num (ret + i) = mem (a + i) := by
    intro i hi
    rw [vec_copy_eq mem ret a num hd, if_pos (by omega), Nat.add_sub_cancel_left]
  have hsrc : ∀ i, i < num / 8 → vec_copy mem ret a num (a + i) = mem (a + i) := by
    intro i hi
    rw [vec_copy_eq mem ret a num hd, if_neg (by omega)]
  refine ⟨hdst, hsrc, ?_, ?_⟩
  · intro i hi
    rw [vec_copy_eq mem ret a num hd, if_neg (by omega)]
  · rw [vec_is_equal_eq _ _ _ (fun i hi => by rw [hdst i hi]; exact ha i hi)
      (fun i hi => by rw [hsrc i hi]; exact ha i hi), if_pos]
    intro i hi
    rw [hdst i hi, hsrc i hi]

theorem C10_vec_copy_copies_witness :
    (∀ i, i < 32 / 8 → vec_copy (fun x => 3 * x + 1) 10 2 32 (10 + i)
        = (fun x => 3 * x + 1) (2 + i)) ∧
      (∀ i, i < 32 / 8 → vec_copy (fun x => 3 * x + 1) 10 2 32 (2 + i)
        = (fun x => 3 * x + 1) (2 + i)) ∧
      (∀ i, 32 / 8 ≤ i → vec_copy (fun x => 3 * x + 1) 10 2 32 (10 + i)
        = (fun x => 3 * x + 1) (10 + i)) ∧
      vec_is_equal (fun i => vec_copy (fun x => 3 * x + 1) 10 2 32 (10 + i))
        (fun i => vec_copy (fun x => 3 * x + 1) 10 2 32 (2 + i)) 32 = 1 :=
  C10_vec_copy_copies (fun x => 3 * x + 1) 10 2 32 (by decide)
    (by intro i hi; dsimp only; omega)

/-! ## Serialization followed by parsing -/

theorem limbs_byte_lt (v : Nat → Nat) (m : Nat) : limbs_byte v m < 256 := by
  unfold limbs_byte
  exact Nat.mod_lt _ (by norm_num)

theorem be_value_be_bytes (out v : Nat → Nat) (n : Nat)
    (hv : ∀ i, i < limbs_for n → v i < 2 ^ 64) :
    be_value (be_bytes_from_limbs out v n) n = limbs_value v (limbs_for n) % 256 ^ n := by
  rw [be_value_eq_digits, ← digits_value_of_div_mod]
  unfold digits_value
  apply Finset.sum_congr rfl
  intro m hm
  have hm := Finset.mem_range.mp hm
  simp only
  rw [be_bytes_from_limbs_eq, if_pos (by omega), show n - 1 - (n - 1 - m) = m by omega,
    limbs_byte_of_limbs_value v (limbs_for n) m hv (by unfold limbs_for; omega)]

theorem le_value_le_bytes (same little : Bool) (hsl : (same && little) = false)
    (out v : Nat → Nat) (n : Nat) (hv : ∀ i, i < limbs_for n → v i < 2 ^ 64) :
    le_value (le_bytes_from_limbs same little out v n) n
      = limbs_value v (limbs_for n) % 256 ^ n := by
  rw [le_value_eq_digits, ← digits_value_of_div_mod]
  unfold digits_value
  apply Finset.sum_congr rfl
  intro m hm
  have hm := Finset.mem_range.mp hm
  simp only
  rw [le_bytes_from_limbs_eq same little hsl, if_pos hm,
    limbs_byte_of_limbs_value v (limbs_for n) m hv (by unfold limbs_for; omega)]

theorem limbs_value_limb (v : Nat → Nat) (c i : Nat) (hv : ∀ i, i < c → v i < 2 ^ 64)
    (hi : i < c) : limbs_value v c / 256 ^ (8 * i) % 2 ^ 64 = v i := by
  have h := digits_value_digit (2 ^ 64) v c i hv hi
  rw [limbs_value_eq_digits, ← h, pow_mul]
  norm_num

theorem limbs_value_lt (v : Nat → Nat) (c : Nat) (hv : ∀ i, i < c → v i < 2 ^ 64) :
    limbs_value v c < 256 ^ (8 * c) := by
  rw [limbs_value_eq_digits, pow_mul]
  have h := digits_value_lt (2 ^ 64) v c hv
  norm_num at h ⊢
  exact h

/-- Parsing the big-endian bytes of whole limbs gives the limbs back. -/
theorem limbs_from_be_bytes_of_be_bytes (ret out v : Nat → Nat) (c : Nat)
    (hv : ∀ i, i < c → v i < 2 ^ 64) (i : Nat) (hi : i < c) :
    limbs_from_be_bytes ret (be_bytes_from_limbs out v (8 * c)) (8 * c) i = v i := by
  have hc : limbs_for (8 * c) = c := by unfold limbs_for; omega
  have hb : ∀ k, k < 8 * c → be_bytes_from_limbs out v (8 * c) k < 256 := by
    intro k hk
    rw [be_bytes_from_limbs_eq, if_pos hk]
    exact limbs_byte_lt _ _
  rw [limbs_from_be_bytes_eq _ _ _ hb, if_pos (by omega),
    be_value_be_bytes out v (8 * c) (by rw [hc]; exact hv), hc,
    Nat.mod_eq_of_lt (limbs_value_lt v c hv), limbs_value_limb v c i hv hi]

/-- Parsing the little-endian bytes of whole limbs gives the limbs back. -/
theorem limbs_from_le_bytes_of_le_bytes (same little : Bool)
    (hsl : (same && little) = false) (ret out v : Nat → Nat) (c : Nat)
    (hv : ∀ i, i < c → v i < 2 ^ 64) (i : Nat) (hi : i < c) :
    limbs_from_le_bytes ret (le_bytes_from_limbs same little out v (8 * c)) (8 * c) i
      = v i := by
  have hc : limbs_for (8 * c) = c := by unfold limbs_for; omega
  have hb : ∀ k, k < 8 * c → le_bytes_from_limbs same little out v (8 * c) k < 256 := by
    intro k hk
    rw [le_bytes_from_limbs_eq same little hsl, if_pos hk]
    exact limbs_byte_lt _ _
  rw [limbs_from_le_bytes_eq _ _ _ hb, if_pos (by omega),
    le_value_le_bytes same little hsl out v (8 * c) (by rw [hc]; exact hv), hc,
    Nat.mod_eq_of_lt (limbs_value_lt v c hv), limbs_value_limb v c i hv hi]

theorem limbs_from_be_bytes_congr (ret b b1 : Nat → Nat) (n : Nat)
    (hb : ∀ k, k < n → b k < 256) (h : ∀ k, k < n → b k = b1 k) (i : Nat) :
    limbs_from_be_bytes ret b n i = limbs_from_be_bytes ret b1 n i := by
  have hb1 : ∀ k, k < n → b1 k < 256 := fun k hk => by rw [← h k hk]; exact hb k hk
  have hval : be_value b n = be_value b1 n := by
    unfold be_value
    apply Finset.sum_congr rfl
    intro k hk
    rw [h k (Finset.mem_range.mp hk)]
  rw [limbs_from_be_bytes_eq ret b n hb, limbs_from_be_bytes_eq ret b1 n hb1, hval]

theorem limbs_from_le_bytes_congr (ret b b1 : Nat → Nat) (n : Nat)
    (hb : ∀ k, k < n → b k < 256) (h : ∀ k, k < n → b k = b1 k) (i : Nat) :
    limbs_from_le_bytes ret b n i = limbs_from_le_bytes ret b1 n i := by
  have hb1 : ∀ k, k < n → b1 k < 256 := fun k hk => by rw [← h k hk]; exact hb k hk
  have hval : le_value b n = le_value b1 n := by
    unfold le_value
    apply Finset.sum_congr rfl
    intro k hk
    rw [h k (Finset.mem_range.mp hk)]
  rw [limbs_from_le_bytes_eq ret b n hb, limbs_from_le_bytes_eq ret b1 n hb1, hval]

/-! ## Claim on the two byte orders -/

/-- C16: for every limb array `v` and every byte count `n`, a multiple of 8 or
not, the bytes written by `le_bytes_from_limbs` to storage other than the limb
storage are those written by `be_bytes_from_limbs` in reverse order: byte `m`
of the first is byte `n - 1 - m` of the second, for all `m < n`. -/
theorem C16_le_bytes_reverse_be_bytes (little : Bool) (out1 out2 v : Nat → Nat) (n m : Nat)
    (hm : m < n) :
    le_bytes_from_limbs false little out1 v n m
      = be_bytes_from_limbs out2 v n (n - 1 - m) := by
  rw [le_bytes_from_limbs_eq false little (Bool.false_and little), if_pos hm,
    be_bytes_from_limbs_eq, if_pos (by omega), show n - 1 - (n - 1 - m) = m by omega]

theorem C16_le_bytes_reverse_be_bytes_witness :
    le_bytes_from_limbs false true (fun _ => 0) (fun i => 2 ^ 63 + i) 35 33
      = be_bytes_from_limbs (fun _ => 255) (fun i => 2 ^ 63 + i) 35 (35 - 1 - 33) :=
  C16_le_bytes_reverse_be_bytes true (fun _ => 0) (fun _ => 255) (fun i => 2 ^ 63 + i) 35 33
    (by decide)

/-! ## Steps performed by the zero and equality tests -/

theorem foldl_or_congr (f g : Nat → Nat) (l : List Nat) (acc : Nat)
    (h : ∀ i, i ∈ l → f i = g i) :
    l.foldl (fun acc i => acc ||| f i) acc = l.foldl (fun acc i => acc ||| g i) acc := by
  induction l generalizing acc with
  | nil => rfl
  | cons x xs ih =>
    rw [List.foldl_cons, List.foldl_cons, h x (List.mem_cons_self x xs)]
    exact ih _ (fun i hi => h i (List.mem_cons_of_mem x hi))

theorem foldl_with_events (f : Nat → Nat → Nat) (ev : Nat → List Event) (l : List Nat)
    (acc : Nat) (tr : List Event) :
    l.foldl (fun st i => (f st.1 i, st.2 ++ ev i)) (acc, tr)
      = (l.foldl f acc, tr ++ l.flatMap ev) := by
  induction l generalizing acc tr with
  | nil => simp
  | cons x xs ih =>
    rw [List.foldl_cons, ih, List.foldl_cons, List.flatMap_cons, List.append_assoc]

theorem vec_is_zero_traced_eq (a : Nat → Nat) (num : Nat) :
    vec_is_zero_traced a num
      = (vec_is_zero a num, (List.range (num / 8)).flatMap
          (fun i => [Event.test true, Event.limb_load 0 i]) ++ [Event.test false]) := by
  unfold vec_is_zero_traced vec_is_zero sizeof_limb_t
  simp only
  rw [foldl_with_events (fun acc i => acc ||| a i)
    (fun i => [Event.test true, Event.limb_load 0 i])]
  simp

theorem vec_is_equal_traced_eq (a b : Nat → Nat) (num : Nat) :
    vec_is_equal_traced a b num
      = (vec_is_equal a b num, (List.range (num / 8)).flatMap
          (fun i => [Event.test true, Event.limb_load 0 i, Event.limb_load 1 i])
            ++ [Event.test false]) := by
  unfold vec_is_equal_traced vec_is_equal sizeof_limb_t
  simp only
  rw [foldl_with_events (fun acc i => acc ||| (a i ^^^ b i))
    (fun i => [Event.test true, Event.limb_load 0 i, Event.limb_load 1 i])]
  simp

theorem loads_of_zero_rounds (l : List Nat) :
    loads_of 0 (l.flatMap (fun i => [Event.test true, Event.limb_load 0 i])
      ++ [Event.test false]) = l := by
  induction l with
  | nil => simp [loads_of]
  | cons x xs ih =>
    rw [List.flatMap_cons, List.append_assoc]
    simp [loads_of, ih]

theorem loads_of_equal_rounds (arr : Nat) (harr : arr = 0 ∨ arr = 1) (l : List Nat) :
    loads_of arr (l.flatMap
      (fun i => [Event.test true, Event.limb_load 0 i, Event.limb_load 1 i])
        ++ [Event.test false]) = l := by
  induction l with
  | nil => simp [loads_of]
  | cons x xs ih =>
    rw [List.flatMap_cons, List.append_assoc]
    rcases harr with rfl | rfl
    · simp [loads_of, ih]
    · simp [loads_of, ih]

theorem tests_of_zero_rounds (l : List Nat) :
    tests_of (l.flatMap (fun i => [Event.test true, Event.limb_load 0 i])
      ++ [Event.test false]) = List.replicate l.length true ++ [false] := by
  induction l with
  | nil => simp [tests_of]
  | cons x xs ih =>
    rw [List.flatMap_cons, List.append_assoc]
    simp [tests_of, ih, List.replicate_succ]

theorem tests_of_equal_rounds (l : List Nat) :
    tests_of (l.flatMap
      (fun i => [Event.test true, Event.limb_load 0 i, Event.limb_load 1 i])
        ++ [Event.test false]) = List.replicate l.length true ++ [false] := by
  induction l with
  | nil => simp [tests_of]
  | cons x xs ih =>
    rw [List.flatMap_cons, List.append_assoc]
    simp [tests_of, ih, List.replicate_succ]

/-! ## Claims on the steps of the zero and equality tests -/

/-- C13: `vec_is_zero` and `vec_is_equal` never short-circuit.  The traced
functions compute the same results as the plain ones; for any two inputs, or
pairs of inputs, with the same `num` the sequences of steps are equal; each
array is loaded at the indices `0, 1, ..., num / 8 - 1`, in this order and once
each; and the loop test succeeds `num / 8` times and then fails, whatever the
limbs are. -/
theorem C13_no_short_circuit (a a1 b b1 : Nat → Nat) (num : Nat) :
    (vec_is_zero_traced a num).1 = vec_is_zero a num ∧
      (vec_is_equal_traced a b num).1 = vec_is_equal a b num ∧
      (vec_is_zero_traced a num).2 = (vec_is_zero_traced a1 num).2 ∧
      (vec_is_equal_traced a b num).2 = (vec_is_equal_traced a1 b1 num).2 ∧
      loads_of 0 (vec_is_zero_traced a num).2 = List.range (num / 8) ∧
      loads_of 0 (vec_is_equal_traced a b num).2 = List.range (num / 8) ∧
      loads_of 1 (vec_is_equal_traced a b num).2 = List.range (num / 8) ∧
      tests_of (vec_is_zero_traced a num).2 = List.replicate (num / 8) true ++ [false] ∧
      tests_of (vec_is_equal_traced a b num).2
        = List.replicate (num / 8) true ++ [false] := by
  simp only [vec_is_zero_traced_eq, vec_is_equal_traced_eq]
  refine ⟨trivial, trivial, trivial, trivial, ?_, ?_, ?_, ?_, ?_⟩
  · exact loads_of_zero_rounds _
  · exact loads_of_equal_rounds 0 (Or.inl rfl) _
  · exact loads_of_equal_rounds 1 (Or.inr rfl) _
  · rw [tests_of_zero_rounds, List.length_range]
  · rw [tests_of_equal_rounds, List.length_range]

/-- C19: the byte count `num` of `vec_is_zero` and `vec_is_equal` is truncated
to whole limbs.  The results depend only on the limbs of index below
`num / 8`; every limb loaded has an index below `num / 8`, so the trailing
`num mod 8` bytes are never examined; and for every `num < 8`, `0` included,
`vec_is_zero` is `1` for every input and `vec_is_equal` is `1` for every pair
of inputs, whether or not they are zero or equal. -/
theorem C19_whole_limbs_only (a a1 b b1 : Nat → Nat) (num : Nat) :
    ((∀ i, i < num / 8 → a i = a1 i) → vec_is_zero a num = vec_is_zero a1 num) ∧
      ((∀ i, i < num / 8 → a i = a1 i) → (∀ i, i < num / 8 → b i = b1 i) →
        vec_is_equal a b num = vec_is_equal a1 b1 num) ∧
      (∀ i, i ∈ loads_of 0 (vec_is_zero_traced a num).2 → i < num / 8) ∧
      (∀ i, i ∈ loads_of 0 (vec_is_equal_traced a b num).2 → i < num / 8) ∧
      (∀ i, i ∈ loads_of 1 (vec_is_equal_traced a b num).2 → i < num / 8) ∧
      (num < 8 → vec_is_zero a num = 1 ∧ vec_is_equal a b num = 1) := by
  refine ⟨?_, ?_, ?_, ?_, ?_, ?_⟩
  · intro h
    unfold vec_is_zero sizeof_limb_t
    rw [foldl_or_congr a a1 _ _ (fun i hi => h i (List.mem_range.mp hi))]
  · intro ha hb
    unfold vec_is_equal sizeof_limb_t
    rw [foldl_or_congr (fun i => a i ^^^ b i) (fun i => a1 i ^^^ b1 i) _ _
      (fun i hi => by
        have hi := List.mem_range.mp hi
        simp only [ha i hi, hb i hi])]
  · intro i hi
    rw [vec_is_zero_traced_eq, loads_of_zero_rounds] at hi
    exact List.mem_range.mp hi
  · intro i hi
    rw [vec_is_equal_traced_eq, loads_of_equal_rounds 0 (Or.inl rfl)] at hi
    exact List.mem_range.mp hi
  · intro i hi
    rw [vec_is_equal_traced_eq, loads_of_equal_rounds 1 (Or.inr rfl)] at hi
    exact List.mem_range.mp hi
  · intro hnum
    have hk : num / 8 = 0 := by omega
    unfold vec_is_zero vec_is_equal sizeof_limb_t
    rw [hk, List.range_zero, List.foldl_nil, List.foldl_nil]
    exact ⟨by decide, by decide⟩

/-! ## Conversion in place -/

theorem load_limb_congr (host_little : Bool) (m1 m2 : Nat → Nat) (i : Nat)
    (h : ∀ j, j < 8 → m1 (8 * i + j) = m2 (8 * i + j)) :
    load_limb host_little m1 i = load_limb host_little m2 i := by
  unfold load_limb le_value be_value
  cases host_little
  · simp only [Bool.false_eq_true, if_false]
    apply Finset.sum_congr rfl
    intro j hj
    rw [h j (Finset.mem_range.mp hj)]
  · simp only [if_true]
    apply Finset.sum_congr rfl
    intro j hj
    rw [h j (Finset.mem_range.mp hj)]

theorem le_bytes_whole_limbs_succ (inp out : Nat → Nat) (k : Nat) :
    le_bytes_whole_limbs inp (k + 1) out
      = le_store_limb sizeof_limb_t (inp k) (le_bytes_whole_limbs inp k out).1
          (le_bytes_whole_limbs inp k out).2 := by
  unfold le_bytes_whole_limbs
  rw [List.range_succ, List.foldl_append, List.foldl_cons, List.foldl_nil]

theorem load_limb_whole_limbs (host_little : Bool) (inp mem : Nat → Nat) (k : Nat) :
    load_limb host_little (le_bytes_whole_limbs inp k mem).2 k
      = load_limb host_little mem k := by
  apply load_limb_congr
  intro j _
  rw [le_bytes_whole_limbs_eq]
  simp only
  rw [if_neg (by omega)]

/-- The whole-limb loop run in place stores what it stores from a copy of the
limbs taken before the call. -/
theorem aliased_whole_limbs_eq (host_little : Bool) (mem : Nat → Nat) :
    ∀ k, (List.range k).foldl
        (fun st i => le_store_limb sizeof_limb_t (load_limb host_little st.2 i) st.1 st.2)
        (0, mem)
      = le_bytes_whole_limbs (load_limb host_little mem) k mem := by
  intro k
  induction k with
  | zero =>
    unfold le_bytes_whole_limbs
    rw [List.range_zero, List.foldl_nil, List.foldl_nil]
  | succ k ih =>
    rw [List.range_succ, List.foldl_append, ih, le_bytes_whole_limbs_succ,
      List.foldl_cons, List.foldl_nil, load_limb_whole_limbs]

/-- Bytes left by `le_bytes_from_limbs` when `out` and `in` are the same
storage. -/
theorem le_bytes_from_limbs_aliased_eq (host_little : Bool) (mem : Nat → Nat) (n k : Nat) :
    le_bytes_from_limbs_aliased host_little mem n k
      = if is_endian_little host_little ≠ 0 then mem k
        else if k < n then limbs_byte (load_limb host_little mem) k else mem k := by
  by_cases he : is_endian_little host_little ≠ 0
  · unfold le_bytes_from_limbs_aliased
    rw [if_pos he, if_pos he]
  · have hplain := le_bytes_from_limbs_eq true false (Bool.and_false true) mem
      (load_limb host_little mem) n k
    rw [if_neg he, ← hplain]
    unfold le_bytes_from_limbs_aliased le_bytes_from_limbs
    rw [if_neg he]
    simp only [Bool.and_false, Bool.false_eq_true, if_false]
    rw [aliased_whole_limbs_eq]
    rw [load_limb_whole_limbs]

theorem limbs_byte_load_little (mem : Nat → Nat) (hb : ∀ k, mem k < 256) (k : Nat) :
    limbs_byte (load_limb true mem) k = mem k := by
  rw [limbs_byte_eq]
  unfold load_limb
  simp only [if_true]
  rw [le_value_byte _ 8 (k % 8) (fun j _ => hb _) (Nat.mod_lt k (by norm_num)),
    Nat.div_add_mod]

theorem limbs_byte_load_big (mem : Nat → Nat) (hb : ∀ k, mem k < 256) (k : Nat) :
    limbs_byte (load_limb false mem) k = mem (8 * (k / 8) + (7 - k % 8)) := by
  rw [limbs_byte_eq]
  unfold load_limb
  simp only [Bool.false_eq_true, if_false]
  rw [be_value_byte _ 8 (k % 8) (fun j _ => hb _) (Nat.mod_lt k (by norm_num))]

/-! ## Claims on the call with `out` and `in` on the same storage -/

/-- C11: on a little-endian host the early return of `le_bytes_from_limbs` is
equivalent to the conversion.  For every limb array `v` and byte count `n` the
bytes written by the conversion loop are the first `n` bytes of the
little-endian memory image of `v`, byte `8 * i + j` being
`(v[i] >> 8 * j) mod 256`; the member `is_endian.little` is not zero, so the
call with `out` and `in` on the same storage `mem` returns at once and leaves
`mem` as it is; and each of the first `n` bytes of `mem` is then the byte that
the conversion of the limbs held by `mem` writes to any other buffer. -/
theorem C11_aliased_little_endian (mem out : Nat → Nat) (n : Nat)
    (hb : ∀ k, mem k < 256) :
    (∀ (v : Nat → Nat) (i j : Nat), j < 8 → 8 * i + j < n →
        le_bytes_from_limbs false true out v n (8 * i + j) = (v i >>> (8 * j)) % 256) ∧
      is_endian_little true ≠ 0 ∧
      le_bytes_from_limbs_aliased true mem n = mem ∧
      (∀ k, k < n → le_bytes_from_limbs_aliased true mem n k
        = le_bytes_from_limbs false true out (load_limb true mem) n k) := by
  have he : is_endian_little true ≠ 0 := by decide
  refine ⟨?_, he, ?_, ?_⟩
  · intro v i j hj hij
    rw [le_bytes_from_limbs_eq false true rfl, if_pos hij]
    unfold limbs_byte
    rw [show (8 * i + j) / 8 = i by omega, show (8 * i + j) % 8 = j by omega]
  · funext k
    rw [le_bytes_from_limbs_aliased_eq, if_pos he]
  · intro k hk
    rw [le_bytes_from_limbs_aliased_eq, if_pos he, le_bytes_from_limbs_eq false true rfl,
      if_pos hk, limbs_byte_load_little mem hb]

theorem C11_aliased_little_endian_witness :
    (∀ (v : Nat → Nat) (i j : Nat), j < 8 → 8 * i + j < 11 →
        le_bytes_from_limbs false true (fun _ => 0) v 11 (8 * i + j)
          = (v i >>> (8 * j)) % 256) ∧
      is_endian_little true ≠ 0 ∧
      le_bytes_from_limbs_aliased true (fun k => k % 256) 11 = (fun k => k % 256) ∧
      (∀ k, k < 11 → le_bytes_from_limbs_aliased true (fun k => k % 256) 11 k
        = le_bytes_from_limbs false true (fun _ => 0)
            (load_limb true (fun k => k % 256)) 11 k) :=
  C11_aliased_little_endian (fun k => k % 256) (fun _ => 0) 11
    (fun k => Nat.mod_lt k (by decide))

/-- C12 as stated fails: on a big-endian host the call of `le_bytes_from_limbs`
with `out` and `in` on the same eight bytes `1, 2, ..., 8` and `n = 8` leaves
`8` in byte `0`, which held `1` before the call. -/
theorem C12_aliased_big_endian_counterexample :
    le_bytes_from_limbs_aliased false (fun k => k + 1) 8 0 = 8 ∧
      (fun k : Nat => k + 1) 0 = 1 := by
  decide

/-- C12 amended: on a big-endian host the member `is_endian.little` is zero,
so the call of `le_bytes_from_limbs` with `out` and `in` on the same storage
`mem` does not return early and the conversion runs in place.  After the call
byte `k` of the storage, for `k < n`, is byte `k` of the little-endian
serialization of the limbs that `mem` held before the call, which is the byte
that was at the mirrored position `8 * (k / 8) + 7 - k mod 8` of the same limb;
the bytes from `n` on are unchanged. -/
theorem C12_aliased_big_endian (mem : Nat → Nat) (n : Nat) (hb : ∀ k, mem k < 256) :
    is_endian_little false = 0 ∧
      (∀ k, k < n → le_bytes_from_limbs_aliased false mem n k
        = (load_limb false mem (k / 8) >>> (8 * (k % 8))) % 256) ∧
      (∀ k, k < n → le_bytes_from_limbs_aliased false mem n k
        = mem (8 * (k / 8) + (7 - k % 8))) ∧
      (∀ k, n ≤ k → le_bytes_from_limbs_aliased false mem n k = mem k) := by
  have he : ¬ (is_endian_little false ≠ 0) := by decide
  refine ⟨by decide, ?_, ?_, ?_⟩
  · intro k hk
    rw [le_bytes_from_limbs_aliased_eq, if_neg he, if_pos hk]
    rfl
  · intro k hk
    rw [le_bytes_from_limbs_aliased_eq, if_neg he, if_pos hk, limbs_byte_load_big mem hb]
  · intro k hk
    rw [le_bytes_from_limbs_aliased_eq, if_neg he, if_neg (by omega)]

theorem C12_aliased_big_endian_witness :
    is_endian_little false = 0 ∧
      (∀ k, k < 11 → le_bytes_from_limbs_aliased false (fun k => k % 256) 11 k
        = (load_limb false (fun k => k % 256) (k / 8) >>> (8 * (k % 8))) % 256) ∧
      (∀ k, k < 11 → le_bytes_from_limbs_aliased false (fun k => k % 256) 11 k
        = (fun k => k % 256) (8 * (k / 8) + (7 - k % 8))) ∧
      (∀ k, 11 ≤ k → le_bytes_from_limbs_aliased false (fun k => k % 256) 11 k
        = (fun k => k % 256) k) :=
  C12_aliased_big_endian (fun k => k % 256) 11 (fun k => Nat.mod_lt k (by decide))

/-! ## Steps performed by the byte conversions -/

theorem byte_steps_append (l1 l2 : List Event) :
    byte_steps (l1 ++ l2) = byte_steps l1 + byte_steps l2 := by
  induction l1 with
  | nil => simp [byte_steps]
  | cons e es ih =>
    cases e <;> simp [byte_steps, ih] <;> omega

theorem limbs_from_be_bytes_traced_spec (inp : Nat → Nat) (N : Nat) :
    ∀ (n p limb : Nat) (ret : Nat → Nat), p + n = N →
      (limbs_from_be_bytes_traced inp n p limb ret).1
          = limbs_from_be_bytes_loop inp n p limb ret ∧
        (∀ e, e ∈ (limbs_from_be_bytes_traced inp n p limb ret).2 → e.in_bounds N) ∧
        byte_steps (limbs_from_be_bytes_traced inp n p limb ret).2 = n := by
  intro n
  induction n with
  | zero =>
    intro p limb ret _
    simp [limbs_from_be_bytes_traced, limbs_from_be_bytes_loop, byte_steps]
  | succ n ih =>
    intro p limb ret hp
    obtain ⟨h1, h2, h3⟩ := ih (p + 1) (limb_shl8 limb ||| inp p)
      (Function.update ret (n / sizeof_limb_t) (limb_shl8 limb ||| inp p)) (by omega)
    simp only [limbs_from_be_bytes_traced, limbs_from_be_bytes_loop]
    refine ⟨h1, ?_, ?_⟩
    · intro e he
      simp only [List.cons_append, List.nil_append, List.mem_cons] at he
      rcases he with rfl | rfl | rfl | he
      · simp [Event.in_bounds]
      · simp only [Event.in_bounds]
        omega
      · simp only [Event.in_bounds, sizeof_limb_t]
        omega
      · exact h2 e he
    · rw [byte_steps_append, h3]
      simp only [byte_steps]
      omega

theorem be_bytes_from_limbs_traced_spec (inp : Nat → Nat) (N : Nat) :
    ∀ (n p : Nat) (out : Nat → Nat), p + n = N →
      (be_bytes_from_limbs_traced inp n p out).1 = be_bytes_from_limbs_loop inp n p out ∧
        (∀ e, e ∈ (be_bytes_from_limbs_traced inp n p out).2 → e.in_bounds N) ∧
        byte_steps (be_bytes_from_limbs_traced inp n p out).2 = n := by
  intro n
  induction n with
  | zero =>
    intro p out _
    simp [be_bytes_from_limbs_traced, be_bytes_from_limbs_loop, byte_steps]
  | succ n ih =>
    intro p out hp
    obtain ⟨h1, h2, h3⟩ := ih (p + 1)
      (Function.update out p
        (to_uchar (inp (n / sizeof_limb_t) >>> (8 * (n % sizeof_limb_t))))) (by omega)
    simp only [be_bytes_from_limbs_traced, be_bytes_from_limbs_loop]
    refine ⟨h1, ?_, ?_⟩
    · intro e he
      simp only [List.cons_append, List.nil_append, List.mem_cons] at he
      rcases he with rfl | rfl | rfl | he
      · simp only [Event.in_bounds, sizeof_limb_t]
        omega
      · simp only [Event.in_bounds, sizeof_limb_t]
        omega
      · simp only [Event.in_bounds]
        omega
      · exact h2 e he
    · rw [byte_steps_append, h3]
      simp only [byte_steps]
      omega

theorem limbs_from_le_bytes_traced_spec (inp : Nat → Nat) (N : Nat) :
    ∀ (n limb : Nat) (ret : Nat → Nat), n ≤ N →
      (limbs_from_le_bytes_traced inp n limb ret).1
          = limbs_from_le_bytes_loop inp n limb ret ∧
        (∀ e, e ∈ (limbs_from_le_bytes_traced inp n limb ret).2 → e.in_bounds N) ∧
        byte_steps (limbs_from_le_bytes_traced inp n limb ret).2 = n := by
  intro n
  induction n with
  | zero =>
    intro limb ret _
    simp [limbs_from_le_bytes_traced, limbs_from_le_bytes_loop, byte_steps]
  | succ n ih =>
    intro limb ret hn
    obtain ⟨h1, h2, h3⟩ := ih (limb_shl8 limb ||| inp n)
      (Function.update ret (n / sizeof_limb_t) (limb_shl8 limb ||| inp n)) (by omega)
    simp only [limbs_from_le_bytes_traced, limbs_from_le_bytes_loop]
    refine ⟨h1, ?_, ?_⟩
    · intro e he
      simp only [List.cons_append, List.nil_append, List.mem_cons] at he
      rcases he with rfl | rfl | rfl | he
      · simp [Event.in_bounds]
      · simp only [Event.in_bounds]
        omega
      · simp only [Event.in_bounds, sizeof_limb_t]
        omega
      · exact h2 e he
    · rw [byte_steps_append, h3]
      simp only [byte_steps]
      omega

theorem le_store_limb_traced_spec (N : Nat) :
    ∀ (cnt limb p : Nat) (out : Nat → Nat), p + cnt ≤ N →
      (le_store_limb_traced cnt limb p out).1 = le_store_limb cnt limb p out ∧
        (∀ e, e ∈ (le_store_limb_traced cnt limb p out).2 → e.in_bounds N) ∧
        byte_steps (le_store_limb_traced cnt limb p out).2 = cnt := by
  intro cnt
  induction cnt with
  | zero =>
    intro limb p out _
    simp [le_store_limb_traced, le_store_limb, byte_steps]
  | succ cnt ih =>
    intro limb p out hp
    obtain ⟨h1, h2, h3⟩ := ih (limb >>> 8) (p + 1)
      (Function.update out p (to_uchar limb)) (by omega)
    simp only [le_store_limb_traced, le_store_limb]
    refine ⟨h1, ?_, ?_⟩
    · intro e he
      simp only [List.cons_append, List.nil_append, List.mem_cons] at he
      rcases he with rfl | rfl | he
      · simp only [Event.in_bounds]
        omega
      · simp [Event.in_bounds]
      · exact h2 e he
    · rw [byte_steps_append, h3]
      simp only [byte_steps]
      omega

theorem le_bytes_whole_limbs_traced_succ (inp out : Nat → Nat) (k : Nat) :
    le_bytes_whole_limbs_traced inp (k + 1) out
      = ((le_store_limb_traced sizeof_limb_t (inp k)
            (le_bytes_whole_limbs_traced inp k out).1.1
            (le_bytes_whole_limbs_traced inp k out).1.2).1,
          (le_bytes_whole_limbs_traced inp k out).2 ++ Event.limb_load 0 k ::
            (le_store_limb_traced sizeof_limb_t (inp k)
              (le_bytes_whole_limbs_traced inp k out).1.1
              (le_bytes_whole_limbs_traced inp k out).1.2).2) := by
  unfold le_bytes_whole_limbs_traced
  rw [List.range_succ, List.foldl_append, List.foldl_cons, List.foldl_nil]

theorem le_bytes_whole_limbs_traced_spec (inp out : Nat → Nat) (N : Nat) :
    ∀ k, 8 * k ≤ N →
      (le_bytes_whole_limbs_traced inp k out).1 = le_bytes_whole_limbs inp k out ∧
        (∀ e, e ∈ (le_bytes_whole_limbs_traced inp k out).2 → e.in_bounds N) ∧
        byte_steps (le_bytes_whole_limbs_traced inp k out).2 = 8 * k := by
  intro k
  induction k with
  | zero =>
    intro _
    simp [le_bytes_whole_limbs_traced, le_bytes_whole_limbs, byte_steps]
  | succ k ih =>
    intro hk
    obtain ⟨h1, h2, h3⟩ := ih (by omega)
    have hp : (le_bytes_whole_limbs inp k out).1 = 8 * k := by
      rw [le_bytes_whole_limbs_eq]
    obtain ⟨g1, g2, g3⟩ := le_store_limb_traced_spec N sizeof_limb_t (inp k)
      (le_bytes_whole_limbs inp k out).1 (le_bytes_whole_limbs inp k out).2
      (by rw [hp]; unfold sizeof_limb_t; omega)
    rw [le_bytes_whole_limbs_traced_succ, le_bytes_whole_limbs_succ, h1]
    refine ⟨g1, ?_, ?_⟩
    · intro e he
      simp only [List.mem_append, List.mem_cons] at he
      rcases he with he | rfl | he
      · exact h2 e he
      · simp only [Event.in_bounds]
        omega
      · exact g2 e he
    · simp only [byte_steps_append, byte_steps, h3, g3, sizeof_limb_t]
      omega

theorem le_bytes_from_limbs_traced_spec (same little : Bool) (out inp : Nat → Nat)
    (n : Nat) :
    (le_bytes_from_limbs_traced same little out inp n).1
        = le_bytes_from_limbs same little out inp n ∧
      (∀ e, e ∈ (le_bytes_from_limbs_traced same little out inp n).2 → e.in_bounds n) ∧
      ((same && little) = false →
        byte_steps (le_bytes_from_limbs_traced same little out inp n).2 = n) := by
  unfold le_bytes_from_limbs_traced le_bytes_from_limbs
  by_cases hsl : (same && little) = true
  · rw [if_pos hsl, if_pos hsl]
    refine ⟨rfl, ?_, ?_⟩
    · intro e he
      simp at he
    · intro hf
      rw [hf] at hsl
      exact absurd hsl (by decide)
  · rw [if_neg hsl, if_neg hsl]
    obtain ⟨h1, h2, h3⟩ := le_bytes_whole_limbs_traced_spec inp out n (n / sizeof_limb_t)
      (by unfold sizeof_limb_t; omega)
    have hp : (le_bytes_whole_limbs inp (n / sizeof_limb_t) out).1
        = 8 * (n / sizeof_limb_t) := by
      rw [le_bytes_whole_limbs_eq]
    by_cases hr : n % sizeof_limb_t ≠ 0
    · obtain ⟨g1, g2, g3⟩ := le_store_limb_traced_spec n (n % sizeof_limb_t)
        (inp (n / sizeof_limb_t)) (le_bytes_whole_limbs inp (n / sizeof_limb_t) out).1
        (le_bytes_whole_limbs inp (n / sizeof_limb_t) out).2
        (by rw [hp]; unfold sizeof_limb_t; omega)
      simp only [if_pos hr, h1]
      refine ⟨by rw [g1], ?_, ?_⟩
      · intro e he
        simp only [List.mem_append, List.mem_cons] at he
        rcases he with he | rfl | he
        · exact h2 e he
        · simp only [Event.in_bounds]
          unfold sizeof_limb_t at hr ⊢
          omega
        · exact g2 e he
      · intro _
        simp only [byte_steps_append, byte_steps, h3, g3]
        unfold sizeof_limb_t
        omega
    · simp only [if_neg hr, h1]
      refine ⟨trivial, h2, ?_⟩
      intro _
      rw [h3]
      unfold sizeof_limb_t at hr ⊢
      omega

/-! ## Claim on the bounds of the byte conversions -/

/-- C18: for every byte count `n`, with a byte buffer of `n` bytes and a limb
array of `ceil(n / 8)` limbs, the traced conversions compute what the plain
ones compute and every step of `limbs_from_be_bytes`, `be_bytes_from_limbs`,
`limbs_from_le_bytes` and `le_bytes_from_limbs` is within bounds: byte indices
are below `n`, limb indices are at most `(n - 1) / 8`, shift amounts are below
64.  Each loop that runs ends after exactly `n` byte steps, and for `n = 0`
no step is performed at all. -/
theorem C18_conversions_in_bounds (same little : Bool) (bytes limbs ret out : Nat → Nat)
    (n : Nat) :
    ((limbs_from_be_bytes_traced bytes n 0 0 ret).1 = limbs_from_be_bytes ret bytes n ∧
        (∀ e, e ∈ (limbs_from_be_bytes_traced bytes n 0 0 ret).2 → e.in_bounds n) ∧
        byte_steps (limbs_from_be_bytes_traced bytes n 0 0 ret).2 = n) ∧
      ((be_bytes_from_limbs_traced limbs n 0 out).1 = be_bytes_from_limbs out limbs n ∧
        (∀ e, e ∈ (be_bytes_from_limbs_traced limbs n 0 out).2 → e.in_bounds n) ∧
        byte_steps (be_bytes_from_limbs_traced limbs n 0 out).2 = n) ∧
      ((limbs_from_le_bytes_traced bytes n 0 ret).1 = limbs_from_le_bytes ret bytes n ∧
        (∀ e, e ∈ (limbs_from_le_bytes_traced bytes n 0 ret).2 → e.in_bounds n) ∧
        byte_steps (limbs_from_le_bytes_traced bytes n 0 ret).2 = n) ∧
      ((le_bytes_from_limbs_traced same little out limbs n).1
          = le_bytes_from_limbs same little out limbs n ∧
        (∀ e, e ∈ (le_bytes_from_limbs_traced same little out limbs n).2 →
          e.in_bounds n) ∧
        ((same && little) = false →
          byte_steps (le_bytes_from_limbs_traced same little out limbs n).2 = n)) ∧
      ((limbs_from_be_bytes_traced bytes 0 0 0 ret).2 = [] ∧
        (be_bytes_from_limbs_traced limbs 0 0 out).2 = [] ∧
        (limbs_from_le_bytes_traced bytes 0 0 ret).2 = [] ∧
        (le_bytes_from_limbs_traced same little out limbs 0).2 = []) := by
  refine ⟨?_, ?_, ?_, ?_, ?_⟩
  · exact limbs_from_be_bytes_traced_spec bytes n n 0 0 ret (by omega)
  · exact be_bytes_from_limbs_traced_spec limbs n n 0 out (by omega)
  · exact limbs_from_le_bytes_traced_spec bytes n n 0 ret (le_refl n)
  · exact le_bytes_from_limbs_traced_spec same little out limbs n
  · refine ⟨rfl, rfl, rfl, ?_⟩
    cases same <;> cases little <;> rfl

/-! ## Montgomery reduction and modular addition -/

theorem mont_redc_word_mul (p n0 t : Nat) (hn0 : (p * n0 + 1) % 2 ^ 64 = 0) :
    mont_redc_word p n0 t * 2 ^ 64 = t + (t % 2 ^ 64 * n0 % 2 ^ 64) * p := by
  unfold mont_redc_word
  apply Nat.div_mul_cancel
  apply (Nat.modEq_zero_iff_dvd).mp
  have h1 : t % 2 ^ 64 * n0 % 2 ^ 64 ≡ t * n0 [MOD 2 ^ 64] :=
    (Nat.mod_modEq _ _).trans ((Nat.mod_modEq t _).mul_right n0)
  have h2 : t + (t % 2 ^ 64 * n0 % 2 ^ 64) * p ≡ t + t * n0 * p [MOD 2 ^ 64] :=
    Nat.ModEq.add_left t (h1.mul_right p)
  have h3 : t + t * n0 * p = t * (p * n0 + 1) := by ring
  have h4 : t * (p * n0 + 1) ≡ t * 0 [MOD 2 ^ 64] := Nat.ModEq.mul_left t hn0
  rw [h3] at h2
  simpa using h2.trans h4

theorem mont_redc_word_inv (p n0 t s i : Nat) (hn0 : (p * n0 + 1) % 2 ^ 64 = 0)
    (h : ∃ M, M < (2 ^ 64) ^ i ∧ s * (2 ^ 64) ^ i = t + M * p) :
    ∃ M, M < (2 ^ 64) ^ (i + 1) ∧ mont_redc_word p n0 s * (2 ^ 64) ^ (i + 1) = t + M * p := by
  obtain ⟨M, hM, hs⟩ := h
  have hword := mont_redc_word_mul p n0 s hn0
  have hm : s % 2 ^ 64 * n0 % 2 ^ 64 < 2 ^ 64 := Nat.mod_lt _ (by norm_num)
  generalize s % 2 ^ 64 * n0 % 2 ^ 64 = m at hword hm
  refine ⟨M + m * (2 ^ 64) ^ i, ?_, ?_⟩
  · have h1 : (m + 1) * (2 ^ 64) ^ i ≤ 2 ^ 64 * (2 ^ 64) ^ i :=
      Nat.mul_le_mul_right _ hm
    calc M + m * (2 ^ 64) ^ i < (2 ^ 64) ^ i + m * (2 ^ 64) ^ i := by omega
      _ = (m + 1) * (2 ^ 64) ^ i := by ring
      _ ≤ 2 ^ 64 * (2 ^ 64) ^ i := h1
      _ = (2 ^ 64) ^ (i + 1) := by ring
  · calc mont_redc_word p n0 s * (2 ^ 64) ^ (i + 1)
        = (mont_redc_word p n0 s * 2 ^ 64) * (2 ^ 64) ^ i := by ring
      _ = (s + m * p) * (2 ^ 64) ^ i := by rw [hword]
      _ = s * (2 ^ 64) ^ i + m * (2 ^ 64) ^ i * p := by ring
      _ = t + M * p + m * (2 ^ 64) ^ i * p := by rw [hs]
      _ = t + (M + m * (2 ^ 64) ^ i) * p := by ring

theorem redc_mont_pasta_spec (t p n0 : Nat) (hn0 : (p * n0 + 1) % 2 ^ 64 = 0)
    (ht : t < p * 2 ^ 256) :
    redc_mont_pasta t p n0 < p ∧ redc_mont_pasta t p n0 * 2 ^ 256 ≡ t [MOD p] := by
  have hp : 0 < p := by
    rcases Nat.eq_zero_or_pos p with h | h
    · rw [h] at ht
      omega
    · exact h
  have h0 : ∃ M, M < (2 ^ 64) ^ 0 ∧ t * (2 ^ 64) ^ 0 = t + M * p := ⟨0, by norm_num, by simp⟩
  have h4 := mont_redc_word_inv p n0 t _ 3 hn0 (mont_redc_word_inv p n0 t _ 2 hn0
    (mont_redc_word_inv p n0 t _ 1 hn0 (mont_redc_word_inv p n0 t _ 0 hn0 h0)))
  obtain ⟨M, hM, hr⟩ := h4
  unfold redc_mont_pasta
  simp only
  generalize mont_redc_word p n0 (mont_redc_word p n0 (mont_redc_word p n0
    (mont_redc_word p n0 t))) = r at hr
  have hR : ((2 : Nat) ^ 64) ^ (3 + 1) = 2 ^ 256 := by norm_num
  rw [hR] at hM hr
  have hMp : M * p < 2 ^ 256 * p := (mul_lt_mul_right hp).mpr hM
  have hr2 : r < 2 * p := by
    have h : r * 2 ^ 256 < (2 * p) * 2 ^ 256 := by
      rw [hr]
      calc t + M * p < p * 2 ^ 256 + 2 ^ 256 * p := by omega
        _ = (2 * p) * 2 ^ 256 := by ring
    exact lt_of_mul_lt_mul_right h (Nat.zero_le _)
  have hmod : r * 2 ^ 256 ≡ t [MOD p] := by
    unfold Nat.ModEq
    rw [hr, Nat.add_mul_mod_self_right]
  by_cases hle : p ≤ r
  · rw [if_pos hle]
    refine ⟨by omega, ?_⟩
    have hsplit : r * 2 ^ 256 = (r - p) * 2 ^ 256 + p * 2 ^ 256 := by
      rw [← Nat.add_mul, Nat.sub_add_cancel hle]
    have h1 : (r - p) * 2 ^ 256 ≡ r * 2 ^ 256 [MOD p] := by
      unfold Nat.ModEq
      rw [hsplit, Nat.add_mul_mod_self_left]
    exact h1.trans hmod
  · rw [if_neg hle]
    exact ⟨by omega, hmod⟩

theorem coprime_two_pow_256 (p : Nat) (hodd : p % 2 = 1) : Nat.gcd p (2 ^ 256) = 1 := by
  have h2 : Nat.Coprime 2 p := Nat.coprime_two_left.mpr (Nat.odd_iff.mpr hodd)
  exact (Nat.Coprime.pow_left 256 h2).symm

theorem mul_mont_pasta_spec (a b p n0 : Nat) (hp : p < 2 ^ 256)
    (hn0 : (p * n0 + 1) % 2 ^ 64 = 0) (ha : a < p) (hb : b ≤ p) :
    mul_mont_pasta a b p n0 < p ∧ mul_mont_pasta a b p n0 * 2 ^ 256 ≡ a * b [MOD p] := by
  unfold mul_mont_pasta
  apply redc_mont_pasta_spec _ _ _ hn0
  calc a * b ≤ a * p := Nat.mul_le_mul_left a hb
    _ < p * p := (mul_lt_mul_right (by omega)).mpr ha
    _ ≤ p * 2 ^ 256 := Nat.mul_le_mul_left p (le_of_lt hp)

theorem to_mont_pasta_spec (a p n0 : Nat) (hodd : p % 2 = 1) (hp : p < 2 ^ 256)
    (hn0 : (p * n0 + 1) % 2 ^ 64 = 0) (ha : a < p) :
    to_mont_pasta a p n0 < p ∧ to_mont_pasta a p n0 ≡ a * 2 ^ 256 [MOD p] := by
  have hpos : 0 < p := by omega
  obtain ⟨h1, h2⟩ := mul_mont_pasta_spec a (2 ^ 512 % p) p n0 hp hn0 ha
    (le_of_lt (Nat.mod_lt _ hpos))
  refine ⟨h1, ?_⟩
  apply Nat.ModEq.cancel_right_of_coprime (coprime_two_pow_256 p hodd)
  have h3 : a * (2 ^ 512 % p) ≡ a * 2 ^ 512 [MOD p] :=
    Nat.ModEq.mul_left a (Nat.mod_modEq _ _)
  have h4 : a * 2 ^ 512 = a * 2 ^ 256 * 2 ^ 256 := by ring
  rw [h4] at h3
  exact h2.trans h3

theorem mont_mul_round_trip (a b p n0 : Nat) (hodd : p % 2 = 1) (hp : p < 2 ^ 256)
    (hn0 : (p * n0 + 1) % 2 ^ 64 = 0) (ha : a < p) (hb : b < p) :
    from_mont_pasta (mul_mont_pasta (to_mont_pasta a p n0) (to_mont_pasta b p n0) p n0) p n0
      = a * b % p := by
  have hpos : 0 < p := by omega
  obtain ⟨hA, hA2⟩ := to_mont_pasta_spec a p n0 hodd hp hn0 ha
  obtain ⟨hB, hB2⟩ := to_mont_pasta_spec b p n0 hodd hp hn0 hb
  obtain ⟨hM, hM2⟩ := mul_mont_pasta_spec _ _ p n0 hp hn0 hA (le_of_lt hB)
  have hM3 : mul_mont_pasta (to_mont_pasta a p n0) (to_mont_pasta b p n0) p n0
      ≡ a * b * 2 ^ 256 [MOD p] := by
    apply Nat.ModEq.cancel_right_of_coprime (coprime_two_pow_256 p hodd)
    have h := hM2.trans (hA2.mul hB2)
    have e : a * 2 ^ 256 * (b * 2 ^ 256) = a * b * 2 ^ 256 * 2 ^ 256 := by ring
    rw [e] at h
    exact h
  obtain ⟨hF, hF2⟩ := mul_mont_pasta_spec _ 1 p n0 hp hn0 hM (by omega)
  have hF3 : from_mont_pasta
      (mul_mont_pasta (to_mont_pasta a p n0) (to_mont_pasta b p n0) p n0) p n0
      ≡ a * b [MOD p] := by
    apply Nat.ModEq.cancel_right_of_coprime (coprime_two_pow_256 p hodd)
    unfold from_mont_pasta
    rw [Nat.mul_one] at hF2
    exact hF2.trans hM3
  unfold from_mont_pasta at hF3 ⊢
  have h := hF3
  unfold Nat.ModEq at h
  rw [Nat.mod_eq_of_lt hF] at h
  exact h

theorem add_mod_pasta_spec (a b p : Nat) (hp : p < 2 ^ 256) (ha : a < p) (hb : b < p) :
    add_mod_pasta a b p = (a + b) % p := by
  unfold add_mod_pasta
  simp only
  by_cases h : p ≤ a + b
  · rw [if_pos h, Nat.mod_eq_of_lt (by omega)]
    have e : a + b = (a + b - p) + p := by omega
    conv_rhs => rw [e, Nat.add_mod_right]
    exact (Nat.mod_eq_of_lt (by omega)).symm
  · rw [if_neg h, Nat.mod_eq_of_lt (by omega), Nat.mod_eq_of_lt (by omega)]

theorem sub_mod_pasta_spec (a b p : Nat) (hp : p < 2 ^ 256) (ha : a < p) (hb : b < p) :
    (sub_mod_pasta a b p : Int) = ((a : Int) - (b : Int)) % (p : Int) := by
  unfold sub_mod_pasta
  simp only
  by_cases h : a < b
  · rw [if_pos h]
    have e : ((a + 2 ^ 256 - b) % 2 ^ 256 + p) % 2 ^ 256 = a + p - b := by omega
    have h1 : ((a : Int) - (b : Int)) % (p : Int)
        = ((a : Int) - (b : Int) + (p : Int)) % (p : Int) := by
      rw [Int.add_emod_self]
    rw [e, h1, Int.emod_eq_of_lt (by omega) (by omega)]
    omega
  · rw [if_neg h]
    have e : (a + 2 ^ 256 - b) % 2 ^ 256 = a - b := by omega
    rw [e, Int.emod_eq_of_lt (by omega) (by omega)]
    omega

theorem mul_mont_pasta_zmod (a b p n0 : Nat) (hodd : p % 2 = 1) (hp : p < 2 ^ 256)
    (hn0 : (p * n0 + 1) % 2 ^ 64 = 0) (ha : a < p) (hb : b < p) :
    ((mul_mont_pasta a b p n0 : Nat) : ZMod p)
      = (a : ZMod p) * (b : ZMod p) * (((2 ^ 256 : Nat) : ZMod p))⁻¹ := by
  obtain ⟨_, h2⟩ := mul_mont_pasta_spec a b p n0 hp hn0 ha (le_of_lt hb)
  have h3 := (ZMod.eq_iff_modEq_nat p).mpr h2
  have hcop : Nat.Coprime (2 ^ 256) p := Nat.Coprime.symm (coprime_two_pow_256 p hodd)
  have hinv := ZMod.coe_mul_inv_eq_one (2 ^ 256) hcop
  rw [Nat.cast_mul, Nat.cast_mul] at h3
  rw [← h3, mul_assoc, hinv, mul_one]

theorem sub_mod_pasta_lt (a b p : Nat) (hp : p < 2 ^ 256) (ha : a < p) (hb : b < p) :
    sub_mod_pasta a b p < p := by
  unfold sub_mod_pasta
  simp only
  by_cases h : a < b
  · rw [if_pos h]
    omega
  · rw [if_neg h]
    omega

/-! ## Claims on the Montgomery engine -/

/-- C14: for an odd modulus `p < 2 ^ 256` (an odd prime in particular) with its
Montgomery constant `n0`, that is `p * n0 ≡ -1` modulo `2 ^ 64`, and
`R = 2 ^ 256`: for all `a, b < p` the result of `mul_mont_pasta` lies in
`[0, p)` and is `a * b * R⁻¹` modulo `p`, stated both as
`ret * R ≡ a * b (mod p)` and in `ZMod p`; consequently converting `a` and `b`
into Montgomery form, multiplying with `mul_mont_pasta` and converting back
with `from_mont_pasta` gives `(a * b) mod p`. -/
theorem C14_mul_mont_pasta_correct (a b p n0 : Nat) (hodd : p % 2 = 1) (hp : p < 2 ^ 256)
    (hn0 : (p * n0 + 1) % 2 ^ 64 = 0) (ha : a < p) (hb : b < p) :
    mul_mont_pasta a b p n0 < p ∧
      (mul_mont_pasta a b p n0 * 2 ^ 256) % p = (a * b) % p ∧
      ((mul_mont_pasta a b p n0 : Nat) : ZMod p)
        = (a : ZMod p) * (b : ZMod p) * (((2 ^ 256 : Nat) : ZMod p))⁻¹ ∧
      from_mont_pasta
          (mul_mont_pasta (to_mont_pasta a p n0) (to_mont_pasta b p n0) p n0) p n0
        = (a * b) % p := by
  obtain ⟨h1, h2⟩ := mul_mont_pasta_spec a b p n0 hp hn0 ha (le_of_lt hb)
  exact ⟨h1, h2, mul_mont_pasta_zmod a b p n0 hodd hp hn0 ha hb,
    mont_mul_round_trip a b p n0 hodd hp hn0 ha hb⟩

theorem C14_mul_mont_pasta_correct_witness :
    mul_mont_pasta 5 7 97 6656041676080766047 < 97 ∧
      (mul_mont_pasta 5 7 97 6656041676080766047 * 2 ^ 256) % 97 = (5 * 7) % 97 ∧
      ((mul_mont_pasta 5 7 97 6656041676080766047 : Nat) : ZMod 97)
        = ((5 : Nat) : ZMod 97) * ((7 : Nat) : ZMod 97) * (((2 ^ 256 : Nat) : ZMod 97))⁻¹ ∧
      from_mont_pasta
          (mul_mont_pasta (to_mont_pasta 5 97 6656041676080766047)
            (to_mont_pasta 7 97 6656041676080766047) 97 6656041676080766047)
          97 6656041676080766047
        = (5 * 7) % 97 :=
  C14_mul_mont_pasta_correct 5 7 97 6656041676080766047 (by decide) (by norm_num)
    (by decide) (by decide) (by decide)

/-- C15: for a modulus `p < 2 ^ 256` and all `a, b < p`, `add_mod_pasta` gives
`(a + b) mod p` and `sub_mod_pasta` gives `(a - b) mod p`, the difference
being taken in the integers; both results lie in `[0, p)`; `a + b = p` gives
`0` from the addition and `a = b` gives `0` from the subtraction. -/
theorem C15_add_sub_mod_pasta_correct (a b p : Nat) (hp : p < 2 ^ 256) (ha : a < p)
    (hb : b < p) :
    add_mod_pasta a b p = (a + b) % p ∧
      (sub_mod_pasta a b p : Int) = ((a : Int) - (b : Int)) % (p : Int) ∧
      add_mod_pasta a b p < p ∧
      sub_mod_pasta a b p < p ∧
      (a + b = p → add_mod_pasta a b p = 0) ∧
      (a = b → sub_mod_pasta a b p = 0) := by
  have hadd := add_mod_pasta_spec a b p hp ha hb
  have hsub := sub_mod_pasta_spec a b p hp ha hb
  refine ⟨hadd, hsub, ?_, sub_mod_pasta_lt a b p hp ha hb, ?_, ?_⟩
  · rw [hadd]
    exact Nat.mod_lt _ (by omega)
  · intro h
    rw [hadd, h, Nat.mod_self]
  · intro h
    have h0 : (sub_mod_pasta a b p : Int) = 0 := by
      rw [hsub, h, sub_self, Int.zero_emod]
    exact_mod_cast h0

theorem C15_add_sub_mod_pasta_correct_witness :
    add_mod_pasta 60 37 97 = (60 + 37) % 97 ∧
      (sub_mod_pasta 60 37 97 : Int) = ((60 : Nat) - (37 : Nat) : Int) % ((97 : Nat) : Int) ∧
      add_mod_pasta 60 37 97 < 97 ∧
      sub_mod_pasta 60 37 97 < 97 ∧
      (60 + 37 = 97 → add_mod_pasta 60 37 97 = 0) ∧
      (60 = 37 → sub_mod_pasta 60 37 97 = 0) :=
  C15_add_sub_mod_pasta_correct 60 37 97 (by norm_num) (by decide) (by decide)

/-! ## Serialization to big-endian bytes on one memory -/

theorem load_limb_at_congr (host_little : Bool) (m1 m2 : Nat → Nat) (addr : Nat)
    (h : ∀ j, j < 8 → m1 (addr + j) = m2 (addr + j)) :
    load_limb_at host_little m1 addr = load_limb_at host_little m2 addr := by
  unfold load_limb_at le_value be_value
  cases host_little
  · simp only [Bool.false_eq_true, if_false]
    apply Finset.sum_congr rfl
    intro j hj
    rw [h j (Finset.mem_range.mp hj)]
  · simp only [if_true]
    apply Finset.sum_congr rfl
    intro j hj
    rw [h j (Finset.mem_range.mp hj)]

theorem limbs_byte_congr (v w : Nat → Nat) (m : Nat) (h : v (m / 8) = w (m / 8)) :
    limbs_byte v m = limbs_byte w m := by
  unfold limbs_byte
  rw [h]

theorem be_value_congr (b1 b2 : Nat → Nat) (n : Nat) (h : ∀ k, k < n → b1 k = b2 k) :
    be_value b1 n = be_value b2 n := by
  unfold be_value
  apply Finset.sum_congr rfl
  intro k hk
  rw [h k (Finset.mem_range.mp hk)]

/-- Bytes left by the loop of `be_bytes_from_limbs` when the bytes it stores
do not overlap the limbs it loads, the storage holding the limbs `v`. -/
theorem be_bytes_from_limbs_mem_loop_eq (host_little : Bool) (inp : Nat) (v : Nat → Nat) :
    ∀ (n outp : Nat) (mem : Nat → Nat),
      (outp + n ≤ inp ∨ inp + 8 * limbs_for n ≤ outp) →
      (∀ i, i < limbs_for n → load_limb_at host_little mem (inp + 8 * i) = v i) →
      ∀ x, be_bytes_from_limbs_mem_loop host_little inp n outp mem x
        = if outp ≤ x ∧ x < outp + n then limbs_byte v (n - 1 - (x - outp)) else mem x := by
  intro n
  induction n with
  | zero =>
    intro outp mem _ _ x
    have h : ¬ (outp ≤ x ∧ x < outp + 0) := by omega
    rw [if_neg h]
    rfl
  | succ n ih =>
    intro outp mem hd hmem x
    have hn8 : n / 8 < limbs_for (n + 1) := by
      unfold limbs_for
      omega
    have hd1 : outp + 1 + n ≤ inp ∨ inp + 8 * limbs_for n ≤ outp + 1 := by
      unfold limbs_for at hd ⊢
      omega
    simp only [be_bytes_from_limbs_mem_loop, sizeof_limb_t]
    rw [hmem (n / 8) hn8]
    have hmem1 : ∀ i, i < limbs_for n →
        load_limb_at host_little
          (Function.update mem outp (to_uchar (v (n / 8) >>> (8 * (n % 8)))))
          (inp + 8 * i) = v i := by
      intro i hi
      rw [← hmem i (by unfold limbs_for at hi ⊢; omega)]
      apply load_limb_at_congr
      intro j hj
      apply Function.update_noteq
      unfold limbs_for at hd hi
      omega
    rw [ih (outp + 1) _ hd1 hmem1 x]
    by_cases h1 : outp + 1 ≤ x ∧ x < outp + 1 + n
    · rw [if_pos h1, if_pos (by omega)]
      congr 1
      omega
    · rw [if_neg h1]
      by_cases h2 : x = outp
      · subst h2
        rw [Function.update_same, if_pos (by omega)]
        simp only [limbs_byte, to_uchar]
        rw [show n + 1 - 1 - (x - x) = n by omega]
      · rw [Function.update_noteq h2, if_neg (by omega)]

/-- On disjoint storage `be_bytes_from_limbs_mem` stores what
`be_bytes_from_limbs` computes from the limbs held by the storage, and leaves
every other byte as it was. -/
theorem be_bytes_from_limbs_mem_eq (host_little : Bool) (mem v : Nat → Nat)
    (out inp n : Nat) (hd : out + n ≤ inp ∨ inp + 8 * limbs_for n ≤ out)
    (hmem : ∀ i, i < limbs_for n → load_limb_at host_little mem (inp + 8 * i) = v i)
    (x : Nat) :
    be_bytes_from_limbs_mem host_little mem out inp n x
      = if out ≤ x ∧ x < out + n
          then be_bytes_from_limbs (fun k => mem (out + k)) v n (x - out)
          else mem x := by
  unfold be_bytes_from_limbs_mem
  rw [be_bytes_from_limbs_mem_loop_eq host_little inp v n out mem hd hmem x]
  by_cases h : out ≤ x ∧ x < out + n
  · rw [if_pos h, if_pos h, be_bytes_from_limbs_eq, if_pos (by omega)]
  · rw [if_neg h, if_neg h]

theorem be_bytes_from_limbs_mem_byte (host_little : Bool) (mem v : Nat → Nat)
    (out inp n : Nat) (hd : out + n ≤ inp ∨ inp + 8 * limbs_for n ≤ out)
    (hmem : ∀ i, i < limbs_for n → load_limb_at host_little mem (inp + 8 * i) = v i)
    (k : Nat) (hk : k < n) :
    be_bytes_from_limbs_mem host_little mem out inp n (out + k)
      = be_bytes_from_limbs (fun k => mem (out + k)) v n k := by
  rw [be_bytes_from_limbs_mem_eq host_little mem v out inp n hd hmem, if_pos (by omega),
    Nat.add_sub_cancel_left]

theorem load_limb_lt (host_little : Bool) (mem : Nat → Nat) (hb : ∀ x, mem x < 256)
    (i : Nat) : load_limb host_little mem i < 2 ^ 64 := by
  unfold load_limb
  cases host_little
  · simp only [Bool.false_eq_true, if_false]
    have h := be_value_lt (fun j => mem (8 * i + j)) 8 (fun j _ => hb _)
    norm_num at h ⊢
    exact h
  · simp only [if_true]
    have h := le_value_lt (fun j => mem (8 * i + j)) 8 (fun j _ => hb _)
    norm_num at h ⊢
    exact h

theorem le_bytes_from_limbs_aliased_byte (host_little : Bool) (mem : Nat → Nat)
    (hb : ∀ x, mem x < 256) (n k : Nat) (hk : k < n) :
    le_bytes_from_limbs_aliased host_little mem n k
      = limbs_byte (load_limb host_little mem) k := by
  rw [le_bytes_from_limbs_aliased_eq]
  by_cases he : is_endian_little host_little ≠ 0
  · rw [if_pos he]
    cases host_little
    · exact absurd he (by decide)
    · rw [limbs_byte_load_little mem hb]
  · rw [if_neg he, if_pos hk]

/-! ## Claims on the big-endian serialization -/

/-- C4 as stated fails for a call in place.  On a little-endian host the
storage `8, 7, ..., 1` holds the limb that `limbs_from_be_bytes` produces from
the bytes `1, 2, ..., 8`; `be_bytes_from_limbs` with `out` on that same
storage and `n = 8` leaves `4` in byte `4`, where the byte sequence has `5`. -/
theorem C4_be_bytes_round_trip_counterexample :
    (∀ i, i < limbs_for 8 →
        load_limb_at true (fun x => 8 - x) (0 + 8 * i)
          = limbs_from_be_bytes (fun _ => 0) (fun k => k + 1) 8 i) ∧
      be_bytes_from_limbs_mem true (fun x => 8 - x) 0 0 8 (0 + 4) = 4 ∧
      (fun k : Nat => k + 1) 4 = 5 := by
  decide

/-- C4 amended: big-endian round trip on disjoint storage.  For every byte
count `n` (in particular 32) and every sequence `b` of `n` bytes, when the
storage at `inp` holds the limbs stored by `limbs_from_be_bytes` from `b` with
length `n` and the `n` bytes at `out` do not overlap these limbs,
`be_bytes_from_limbs` with length `n` writes exactly `b` at `out`, on a host
of either byte order and whatever the memory held elsewhere. -/
theorem C4_be_bytes_round_trip (host_little : Bool) (mem ret b : Nat → Nat)
    (out inp n : Nat) (hb : ∀ k, k < n → b k < 256)
    (hd : out + n ≤ inp ∨ inp + 8 * limbs_for n ≤ out)
    (hmem : ∀ i, i < limbs_for n →
      load_limb_at host_little mem (inp + 8 * i) = limbs_from_be_bytes ret b n i) :
    ∀ k, k < n → be_bytes_from_limbs_mem host_little mem out inp n (out + k) = b k := by
  intro k hk
  have hlimb : limbs_from_be_bytes ret b n ((n - 1 - k) / 8)
      = be_value b n / 256 ^ (8 * ((n - 1 - k) / 8)) % 2 ^ 64 := by
    rw [limbs_from_be_bytes_eq ret b n hb, if_pos (by omega)]
  rw [be_bytes_from_limbs_mem_byte host_little mem _ out inp n hd hmem k hk,
    be_bytes_from_limbs_eq, if_pos hk, limbs_byte_of_value _ (be_value b n) _ hlimb,
    be_value_byte b n _ hb (by omega)]
  congr 1
  omega

theorem C4_be_bytes_round_trip_witness :
    be_bytes_from_limbs_mem true (fun x => 8 - x) 8 0 8 (8 + 4) = 5 :=
  C4_be_bytes_round_trip true (fun x => 8 - x) (fun _ => 0) (fun k => k + 1) 8 0 8
    (by decide) (by decide) (by decide) 4 (by decide)

/-- C8 as stated fails for a call in place.  On a little-endian host the
storage `8, 7, ..., 1` holds the limb `0x0102030405060708`;
`be_bytes_from_limbs` with `out` on that same storage and `n = 8` leaves `4`
in byte `4`, where byte number `8 - 1 - 4` of the limb is `5`. -/
theorem C8_be_bytes_from_limbs_encoding_counterexample :
    load_limb_at true (fun x => 8 - x) 0 = 0x0102030405060708 ∧
      be_bytes_from_limbs_mem true (fun x => 8 - x) 0 0 8 (0 + 4) = 4 ∧
      limbs_byte (fun i => load_limb_at true (fun x => 8 - x) (0 + 8 * i)) (8 - 1 - 4) = 5 := by
  decide

/-- C8 amended: for every array `v` of 64-bit limbs held by the storage at
`inp` and every byte count `n`, when the `n` bytes at `out` do not overlap
these limbs, `be_bytes_from_limbs` writes exactly the bytes
`out .. out + n - 1`: byte `k` becomes byte number `n - 1 - k` of `v`, byte
number `m` being `(v[m / 8] >> 8 * (m mod 8)) mod 256`, and every other byte
of the memory, the limbs included, is left as it was.  The bytes written are
the big-endian encoding of the value of `v` modulo `256 ^ n`.  Of the partial
limb `v[n / 8]` only the low `n mod 8` bytes influence the output, and no limb
above it does. -/
theorem C8_be_bytes_from_limbs_encoding (host_little : Bool) (mem v : Nat → Nat)
    (out inp n : Nat) (hv : ∀ i, i < limbs_for n → v i < 2 ^ 64)
    (hd : out + n ≤ inp ∨ inp + 8 * limbs_for n ≤ out)
    (hmem : ∀ i, i < limbs_for n → load_limb_at host_little mem (inp + 8 * i) = v i) :
    (∀ k, k < n →
        be_bytes_from_limbs_mem host_little mem out inp n (out + k)
          = limbs_byte v (n - 1 - k)) ∧
      (∀ x, ¬ (out ≤ x ∧ x < out + n) →
        be_bytes_from_limbs_mem host_little mem out inp n x = mem x) ∧
      ∑ k in Finset.range n,
          be_bytes_from_limbs_mem host_little mem out inp n (out + k) * 256 ^ (n - 1 - k)
        = limbs_value v (limbs_for n) % 256 ^ n ∧
      (∀ mem2 w : Nat → Nat,
        (∀ i, i < limbs_for n → load_limb_at host_little mem2 (inp + 8 * i) = w i) →
        (∀ i, i < n / 8 → w i = v i) →
        w (n / 8) % 256 ^ (n % 8) = v (n / 8) % 256 ^ (n % 8) →
        ∀ k, k < n →
          be_bytes_from_limbs_mem host_little mem2 out inp n (out + k)
            = be_bytes_from_limbs_mem host_little mem out inp n (out + k)) := by
  have hbyte : ∀ k, k < n →
      be_bytes_from_limbs_mem host_little mem out inp n (out + k)
        = limbs_byte v (n - 1 - k) := by
    intro k hk
    rw [be_bytes_from_limbs_mem_byte host_little mem v out inp n hd hmem k hk,
      be_bytes_from_limbs_eq, if_pos hk]
  refine ⟨hbyte, ?_, ?_, ?_⟩
  · intro x hx
    rw [be_bytes_from_limbs_mem_eq host_little mem v out inp n hd hmem, if_neg hx]
  · show be_value (fun k => be_bytes_from_limbs_mem host_little mem out inp n (out + k)) n
      = _
    rw [be_value_congr _ (be_bytes_from_limbs (fun k => mem (out + k)) v n) n
      (fun k hk => be_bytes_from_limbs_mem_byte host_little mem v out inp n hd hmem k hk),
      be_value_be_bytes _ v n hv]
  · intro mem2 w hmem2 hlow htop k hk
    rw [hbyte k hk, be_bytes_from_limbs_mem_byte host_little mem2 w out inp n hd hmem2 k hk,
      be_bytes_from_limbs_eq, if_pos hk, limbs_byte_eq, limbs_byte_eq]
    by_cases hi : (n - 1 - k) / 8 < n / 8
    · rw [hlow _ hi]
    · have hidx : (n - 1 - k) / 8 = n / 8 := by omega
      have hj : (n - 1 - k) % 8 < n % 8 := by omega
      rw [hidx, ← byte_of_low_bytes (w (n / 8)) _ _ hj,
        ← byte_of_low_bytes (v (n / 8)) _ _ hj, htop]

theorem C8_be_bytes_from_limbs_encoding_witness :
    be_bytes_from_limbs_mem true (fun x => (7 * x + 3) % 256) 16 0 11 (16 + 2)
      = limbs_byte (fun i => load_limb_at true (fun x => (7 * x + 3) % 256) (0 + 8 * i))
          (11 - 1 - 2) :=
  (C8_be_bytes_from_limbs_encoding true (fun x => (7 * x + 3) % 256)
    (fun i => load_limb_at true (fun x => (7 * x + 3) % 256) (0 + 8 * i)) 16 0 11
    (by decide) (by decide) (fun _ _ => rfl)).1 2 (by decide)

/-- C17 as stated fails for a call in place.  On a little-endian host the
storage `8, 7, ..., 1` holds the limb `0x0102030405060708`; the bytes that
`be_bytes_from_limbs` leaves with `out` on that same storage and `n = 8` are
parsed by `limbs_from_be_bytes` to `0x0102030404030201`, another limb. -/
theorem C17_limbs_round_trip_counterexample :
    load_limb_at true (fun x => 8 - x) 0 = 0x0102030405060708 ∧
      limbs_from_be_bytes (fun _ => 0)
        (fun k => be_bytes_from_limbs_mem true (fun x => 8 - x) 0 0 8 (0 + k)) 8 0
          = 0x0102030404030201 := by
  decide

/-- C17 amended: limb round trip at full width.  For every byte count `n` that
is a multiple of 8 and every vector `v` of `n / 8` 64-bit limbs held by the
storage at `inp`: when `be_bytes_from_limbs` writes to `n` bytes that do not
overlap these limbs, `limbs_from_be_bytes` parses the bytes written back to
`v`; when `le_bytes_from_limbs` writes to a destination distinct from the limb
storage, `limbs_from_le_bytes` parses the bytes written back to `v`, and so it
does when `le_bytes_from_limbs` is called in place on the limb storage itself,
on a host of either byte order.  Hence both serializations to a distinct
destination are injective on such vectors: two vectors with the same `n`
bytes have the same `n / 8` limbs. -/
theorem C17_limbs_round_trip (host_little little : Bool) (mem ret out2 v : Nat → Nat)
    (out inp n : Nat) (h8 : n % 8 = 0) (hv : ∀ i, i < n / 8 → v i < 2 ^ 64)
    (hd : out + n ≤ inp ∨ inp + 8 * limbs_for n ≤ out)
    (hmem : ∀ i, i < limbs_for n → load_limb_at host_little mem (inp + 8 * i) = v i) :
    (∀ i, i < n / 8 →
        limbs_from_be_bytes ret
          (fun k => be_bytes_from_limbs_mem host_little mem out inp n (out + k)) n i
            = v i) ∧
      (∀ i, i < n / 8 →
        limbs_from_le_bytes ret (le_bytes_from_limbs false little out2 v n) n i = v i) ∧
      (∀ store : Nat → Nat, (∀ x, store x < 256) → ∀ i, i < n / 8 →
        limbs_from_le_bytes ret (le_bytes_from_limbs_aliased host_little store n) n i
          = load_limb host_little store i) ∧
      (∀ mem2 w : Nat → Nat, (∀ i, i < n / 8 → w i < 2 ^ 64) →
        (∀ i, i < limbs_for n → load_limb_at host_little mem2 (inp + 8 * i) = w i) →
        (∀ k, k < n → be_bytes_from_limbs_mem host_little mem out inp n (out + k)
          = be_bytes_from_limbs_mem host_little mem2 out inp n (out + k)) →
        ∀ i, i < n / 8 → v i = w i) ∧
      (∀ w : Nat → Nat, (∀ i, i < n / 8 → w i < 2 ^ 64) →
        (∀ k, k < n → le_bytes_from_limbs false little out2 v n k
          = le_bytes_from_limbs false little out2 w n k) →
        ∀ i, i < n / 8 → v i = w i) := by
  obtain ⟨c, rfl⟩ : ∃ c, n = 8 * c := ⟨n / 8, by omega⟩
  have hc : 8 * c / 8 = c := by omega
  have hlf : limbs_for (8 * c) = c := by unfold limbs_for; omega
  rw [hc] at hv ⊢
  rw [hlf] at hd hmem
  have hsl : (false && little) = false := Bool.false_and little
  have hbe : ∀ (m w : Nat → Nat), (∀ i, i < c → w i < 2 ^ 64) →
      (∀ i, i < c → load_limb_at host_little m (inp + 8 * i) = w i) →
      ∀ i, i < c →
        limbs_from_be_bytes ret
          (fun k => be_bytes_from_limbs_mem host_little m out inp (8 * c) (out + k))
          (8 * c) i = w i := by
    intro m w hw hm i hi
    have hbytes : ∀ k, k < 8 * c →
        be_bytes_from_limbs_mem host_little m out inp (8 * c) (out + k)
          = be_bytes_from_limbs (fun k => m (out + k)) w (8 * c) k :=
      fun k hk => be_bytes_from_limbs_mem_byte host_little m w out inp (8 * c)
        (by rw [hlf]; exact hd) (by rw [hlf]; exact hm) k hk
    rw [limbs_from_be_bytes_congr ret _
      (be_bytes_from_limbs (fun k => m (out + k)) w (8 * c)) (8 * c) _ hbytes i]
    · exact limbs_from_be_bytes_of_be_bytes ret _ w c hw i hi
    · intro k hk
      rw [hbytes k hk, be_bytes_from_limbs_eq, if_pos hk]
      exact limbs_byte_lt _ _
  refine ⟨hbe mem v hv hmem, ?_, ?_, ?_, ?_⟩
  · intro i hi
    exact limbs_from_le_bytes_of_le_bytes false little hsl ret out2 v c hv i hi
  · intro store hstore i hi
    have hbytes : ∀ k, k < 8 * c →
        le_bytes_from_limbs_aliased host_little store (8 * c) k
          = le_bytes_from_limbs false little out2 (load_limb host_little store) (8 * c) k := by
      intro k hk
      rw [le_bytes_from_limbs_aliased_byte host_little store hstore (8 * c) k hk,
        le_bytes_from_limbs_eq false little hsl, if_pos hk]
    rw [limbs_from_le_bytes_congr ret _
      (le_bytes_from_limbs false little out2 (load_limb host_little store) (8 * c))
      (8 * c) _ hbytes i]
    · exact limbs_from_le_bytes_of_le_bytes false little hsl ret out2 _ c
        (fun j _ => load_limb_lt host_little store hstore j) i hi
    · intro k hk
      rw [le_bytes_from_limbs_aliased_byte host_little store hstore (8 * c) k hk]
      exact limbs_byte_lt _ _
  · intro mem2 w hw hmem2 hsame i hi
    rw [hlf] at hmem2
    rw [← hbe mem v hv hmem i hi, ← hbe mem2 w hw hmem2 i hi]
    apply limbs_from_be_bytes_congr _ _ _ _ _ hsame
    intro k hk
    rw [be_bytes_from_limbs_mem_byte host_little mem v out inp (8 * c)
      (by rw [hlf]; exact hd) (by rw [hlf]; exact hmem) k hk, be_bytes_from_limbs_eq,
      if_pos hk]
    exact limbs_byte_lt _ _
  · intro w hw hsame i hi
    rw [← limbs_from_le_bytes_of_le_bytes false little hsl ret out2 v c hv i hi,
      ← limbs_from_le_bytes_of_le_bytes false little hsl ret out2 w c hw i hi]
    apply limbs_from_le_bytes_congr _ _ _ _ _ hsame
    intro k hk
    rw [le_bytes_from_limbs_eq false little hsl, if_pos hk]
    exact limbs_byte_lt _ _

theorem C17_limbs_round_trip_witness :
    limbs_from_be_bytes (fun _ => 0)
        (fun k => be_bytes_from_limbs_mem true (fun x => (7 * x + 3) % 256) 16 0 16 (16 + k))
        16 1
      = (fun i => load_limb_at true (fun x => (7 * x + 3) % 256) (0 + 8 * i)) 1 :=
  (C17_limbs_round_trip true true (fun x => (7 * x + 3) % 256) (fun _ => 0) (fun _ => 0)
    (fun i => load_limb_at true (fun x => (7 * x + 3) % 256) (0 + 8 * i)) 16 0 16
    (by decide) (by decide) (by decide) (fun _ _ => rfl)).1 1 (by decide)

end Vect
